import Mathlib

/-! Boost.Endian: byte reversal, conditional reversal, the load and store
functions and the arithmetic wrapper.

A shallow embedding of `boost/endian/detail/endian_reverse.hpp`, of
`boost/endian/conversion.hpp` and of `boost/endian/arithmetic.hpp`.

* An unsigned machine integer of `w` bits is a natural number below `2 ^ w`;
  every operation that can leave that range is followed by an explicit
  `% 2 ^ w`, as the C++ unsigned arithmetic does.
* A value of a signed type is an integer inside the two's-complement range of
  the type; the two `static_cast`s of `endian_reverse` are modelled modulo
  `2 ^ w`.
* A function template that makes an unqualified call to `endian_reverse`
  takes that function as its first argument.
* Memory is a list of bytes; a function that writes memory or an object returns
  the new content.
* An expression with undefined behaviour has the value `none`.
-/

namespace Endian

/-! ## Definitions -/

/-- Modelled from the spec: the enumeration `order` of `detail/order.hpp`, which
is not part of the sources at hand. Its enumerator `native` has the value of the
host's order, `big` or `little`, and is no third value; the functions below that
mention `order::native` take it as their argument `native`. -/
inductive order where
  | big
  | little
deriving DecidableEq, Repr

/-- Modelled from the spec: the unsigned types `integral_by_size<N>::type` of
`detail/integral_by_size.hpp`, which is not part of the sources at hand: "the
equal-sized unsigned integer" for `N` = 1, 2, 4, 8 and 16 bytes. -/
inductive integral_by_size where
  | uint8_t
  | uint16_t
  | uint32_t
  | uint64_t
  | uint128_type
deriving DecidableEq, Repr

/-- The `N` of `integral_by_size<N>`: the size in bytes. -/
def integral_by_size.size : integral_by_size → Nat
  | .uint8_t => 1
  | .uint16_t => 2
  | .uint32_t => 4
  | .uint64_t => 8
  | .uint128_type => 16

/-- Width in bits of an unsigned type. -/
def integral_by_size.bits (N : integral_by_size) : Nat := 8 * N.size

/-- Byte `i` of `x`, byte 0 being the least significant one. -/
def byte_of (x i : Nat) : Nat := x / 2 ^ (8 * i) % 256

/-- Reversal of the `n` low bytes of `x`: byte `i` of the result is byte
`n - 1 - i` of `x`. -/
def byte_swap : Nat → Nat → Nat
  | 0, _ => 0
  | n + 1, x => 2 ^ (8 * n) * (x % 256) + byte_swap n (x / 256)

/-- Modelled from the spec: the macro `BOOST_ENDIAN_INTRINSIC_BYTE_SWAP_2` of
`detail/intrinsic.hpp`, which is not part of the sources at hand: the platform
byte-swap primitive for two bytes. -/
def BOOST_ENDIAN_INTRINSIC_BYTE_SWAP_2 (x : Nat) : Nat := byte_swap 2 x

/-- Modelled from the spec: the macro `BOOST_ENDIAN_INTRINSIC_BYTE_SWAP_4` of
`detail/intrinsic.hpp`, which is not part of the sources at hand: the platform
byte-swap primitive for four bytes. -/
def BOOST_ENDIAN_INTRINSIC_BYTE_SWAP_4 (x : Nat) : Nat := byte_swap 4 x

/-- Modelled from the spec: the macro `BOOST_ENDIAN_INTRINSIC_BYTE_SWAP_8` of
`detail/intrinsic.hpp`, which is not part of the sources at hand: the platform
byte-swap primitive for eight bytes. -/
def BOOST_ENDIAN_INTRINSIC_BYTE_SWAP_8 (x : Nat) : Nat := byte_swap 8 x

/-- The overload `endian_reverse_impl( uint8_t x )`. -/
def endian_reverse_impl_uint8 (x : Nat) : Nat := x

/-- The overload `endian_reverse_impl( uint16_t x )`. With
`BOOST_ENDIAN_NO_INTRINSICS` the operand is promoted to `int` (at least 32
bits), so `x << 8` is not truncated; the conversion of the result to `uint16_t`
is the reduction modulo `2 ^ 16`. -/
def endian_reverse_impl_uint16 (no_intrinsics : Bool) (x : Nat) : Nat :=
  if no_intrinsics then
    ((x <<< 8) ||| (x >>> 8)) % 2 ^ 16
  else
    BOOST_ENDIAN_INTRINSIC_BYTE_SWAP_2 x

/-- The overload `endian_reverse_impl( uint32_t x )`. -/
def endian_reverse_impl_uint32 (no_intrinsics : Bool) (x : Nat) : Nat :=
  if no_intrinsics then
    let step16 := ((x <<< 16) % 2 ^ 32) ||| (x >>> 16)
    (((step16 <<< 8) % 2 ^ 32) &&& 0xff00ff00) ||| ((step16 >>> 8) &&& 0x00ff00ff)
  else
    BOOST_ENDIAN_INTRINSIC_BYTE_SWAP_4 x

/-- The overload `endian_reverse_impl( uint64_t x )`. -/
def endian_reverse_impl_uint64 (no_intrinsics : Bool) (x : Nat) : Nat :=
  if no_intrinsics then
    let step32 := ((x <<< 32) % 2 ^ 64) ||| (x >>> 32)
    let step16 := (((step32 &&& 0x0000FFFF0000FFFF) <<< 16) % 2 ^ 64)
      ||| ((step32 &&& 0xFFFF0000FFFF0000) >>> 16)
    (((step16 &&& 0x00FF00FF00FF00FF) <<< 8) % 2 ^ 64)
      ||| ((step16 &&& 0xFF00FF00FF00FF00) >>> 8)
  else
    BOOST_ENDIAN_INTRINSIC_BYTE_SWAP_8 x

/-- The overload `endian_reverse_impl( uint128_type x )`:
`static_cast<uint64_t>` is the reduction modulo `2 ^ 64`, the shift of the
`uint128_type` operand is reduced modulo `2 ^ 128`. -/
def endian_reverse_impl_uint128 (no_intrinsics : Bool) (x : Nat) : Nat :=
  endian_reverse_impl_uint64 no_intrinsics ((x >>> 64) % 2 ^ 64)
    ||| ((endian_reverse_impl_uint64 no_intrinsics (x % 2 ^ 64) <<< 64) % 2 ^ 128)

/-- Overload resolution of `detail::endian_reverse_impl` on the type of its
argument. -/
def endian_reverse_impl (no_intrinsics : Bool) : integral_by_size → Nat → Nat
  | .uint8_t => endian_reverse_impl_uint8
  | .uint16_t => endian_reverse_impl_uint16 no_intrinsics
  | .uint32_t => endian_reverse_impl_uint32 no_intrinsics
  | .uint64_t => endian_reverse_impl_uint64 no_intrinsics
  | .uint128_type => endian_reverse_impl_uint128 no_intrinsics

/-- A non-bool integral type `T`, as far as `endian_reverse` looks at it: the
unsigned type of its size and its signedness. -/
structure integral_type where
  uintN_t : integral_by_size
  is_signed : Bool
deriving DecidableEq, Repr

/-- The values of the type `T`. -/
def integral_type.in_range (T : integral_type) (x : Int) : Prop :=
  if T.is_signed then
    -(2 : Int) ^ (T.uintN_t.bits - 1) ≤ x ∧ x < (2 : Int) ^ (T.uintN_t.bits - 1)
  else
    0 ≤ x ∧ x < (2 : Int) ^ T.uintN_t.bits

/-- The conversion `static_cast<uintN_t>( x )`: the value modulo `2 ^ bits`. -/
def static_cast_uintN (N : integral_by_size) (x : Int) : Nat :=
  (x % (2 : Int) ^ N.bits).toNat

/-- The conversion `static_cast<T>( u )` of an unsigned value of the size of
`T`: for a signed `T` the two's-complement value of the bit pattern. -/
def static_cast_T (T : integral_type) (u : Nat) : Int :=
  if T.is_signed && decide (2 ^ (T.uintN_t.bits - 1) ≤ u) then
    (u : Int) - (2 : Int) ^ T.uintN_t.bits
  else
    (u : Int)

/-- The function template `endian_reverse( T x )` for a non-class type. -/
def endian_reverse (no_intrinsics : Bool) (T : integral_type) (x : Int) : Int :=
  static_cast_T T (endian_reverse_impl no_intrinsics T.uintN_t (static_cast_uintN T.uintN_t x))

/-- The two overloads of `detail::conditional_reverse_impl`; the tag is
`detail::true_type` (`true`) or `detail::false_type` (`false`). -/
def conditional_reverse_impl {α : Type} (endian_reverse : α → α) (x : α) : Bool → α
  | true => x
  | false => endian_reverse x

/-- The compile-time `conditional_reverse<From, To>( x )`. -/
def conditional_reverse {α : Type} (endian_reverse : α → α) (From To : order) (x : α) : α :=
  conditional_reverse_impl endian_reverse x (decide (From = To))

/-- The run-time `conditional_reverse( x, from_order, to_order )`. -/
def conditional_reverse_runtime {α : Type} (endian_reverse : α → α) (x : α)
    (from_order to_order : order) : α :=
  if from_order = to_order then x else endian_reverse x

/-- The function template `big_to_native( x )`. -/
def big_to_native {α : Type} (native : order) (endian_reverse : α → α) (x : α) : α :=
  conditional_reverse endian_reverse order.big native x

/-- The function template `native_to_big( x )`. -/
def native_to_big {α : Type} (native : order) (endian_reverse : α → α) (x : α) : α :=
  conditional_reverse endian_reverse native order.big x

/-- The function template `little_to_native( x )`. -/
def little_to_native {α : Type} (native : order) (endian_reverse : α → α) (x : α) : α :=
  conditional_reverse endian_reverse order.little native x

/-- The function template `native_to_little( x )`. -/
def native_to_little {α : Type} (native : order) (endian_reverse : α → α) (x : α) : α :=
  conditional_reverse endian_reverse native order.little x

/-! ## Bytes in memory -/

/-- The `n` low bytes of `u`, least significant byte first. -/
def bytes_little : Nat → Nat → List Nat
  | 0, _ => []
  | n + 1, u => u % 256 :: bytes_little n (u / 256)

/-- The unsigned value of a sequence of bytes, least significant byte first. -/
def of_bytes_little : List Nat → Nat
  | [] => 0
  | b :: bs => b + 256 * of_bytes_little bs

/-- The `n` low bytes of `u` as they lie in memory in the byte order `o`: least
significant byte first for `little`, most significant byte first for `big`. -/
def to_bytes (o : order) (n u : Nat) : List Nat :=
  match o with
  | .little => bytes_little n u
  | .big => (bytes_little n u).reverse

/-- The unsigned value of a sequence of bytes that lies in memory in the byte
order `o`. -/
def of_bytes (o : order) (bs : List Nat) : Nat :=
  match o with
  | .little => of_bytes_little bs
  | .big => of_bytes_little bs.reverse

/-- The object representation of the value `x` of the integral type `T` on a
host whose byte order is `native`: the `sizeof(T)` bytes of its two's-complement
bit pattern. -/
def object_representation (native : order) (T : integral_type) (x : Int) : List Nat :=
  to_bytes native T.uintN_t.size (static_cast_uintN T.uintN_t x)

/-- The value of the integral type `T` whose object representation is `bs`. -/
def value_of_representation (native : order) (T : integral_type) (bs : List Nat) : Int :=
  static_cast_T T (of_bytes native bs)

/-! ## Reversal in place -/

/-- The function template `endian_reverse_inplace( T & x )` for a non-class
type, at an integral `T`; the result is the new content of `x`. The first
`std::memcpy` gives `x2` the bytes of `x`, the second one gives `x` the bytes of
`x2`. -/
def endian_reverse_inplace (native : order) (no_intrinsics : Bool) (T : integral_type)
    (x : Int) : Int :=
  let x2 := of_bytes native (object_representation native T x)
  let x2 := endian_reverse_impl no_intrinsics T.uintN_t x2
  value_of_representation native T (to_bytes native T.uintN_t.size x2)

/-- The default `endian_reverse_inplace( T & x )` for a class type:
`x = endian_reverse( x )`; the result is the new content of `x`. -/
def endian_reverse_inplace_class {α : Type} (endian_reverse : α → α) (x : α) : α :=
  endian_reverse x

/-- The loop of `endian_reverse_inplace( T (&x)[ N ] )` from the index `i` on:
each round calls `endian_reverse_inplace( x[i] )`. -/
def endian_reverse_inplace_array_loop {α : Type} (endian_reverse_inplace : α → α) (N : Nat)
    (i : Nat) (x : List α) : List α :=
  if i < N then
    match x[i]? with
    | some e =>
      endian_reverse_inplace_array_loop endian_reverse_inplace N (i + 1)
        (x.set i (endian_reverse_inplace e))
    | none => endian_reverse_inplace_array_loop endian_reverse_inplace N (i + 1) x
  else
    x
termination_by N - i

/-- The function template `endian_reverse_inplace( T (&x)[ N ] )`; the array is
the list of its `N` elements, the result its new content. -/
def endian_reverse_inplace_array {α : Type} (endian_reverse_inplace : α → α) (N : Nat)
    (x : List α) : List α :=
  endian_reverse_inplace_array_loop endian_reverse_inplace N 0 x

/-- The two overloads of `detail::conditional_reverse_inplace_impl`; the tag is
`detail::true_type` (`true`) or `detail::false_type` (`false`). -/
def conditional_reverse_inplace_impl {α : Type} (endian_reverse_inplace : α → α) (x : α) :
    Bool → α
  | true => x
  | false => endian_reverse_inplace x

/-- The compile-time `conditional_reverse_inplace<From, To>( x )`. -/
def conditional_reverse_inplace {α : Type} (endian_reverse_inplace : α → α) (From To : order)
    (x : α) : α :=
  conditional_reverse_inplace_impl endian_reverse_inplace x (decide (From = To))

/-- The run-time `conditional_reverse_inplace( x, from_order, to_order )`. -/
def conditional_reverse_inplace_runtime {α : Type} (endian_reverse_inplace : α → α) (x : α)
    (from_order to_order : order) : α :=
  if from_order ≠ to_order then endian_reverse_inplace x else x

/-- The function template `big_to_native_inplace( x )`. -/
def big_to_native_inplace {α : Type} (native : order) (endian_reverse_inplace : α → α)
    (x : α) : α :=
  conditional_reverse_inplace endian_reverse_inplace order.big native x

/-- The function template `native_to_big_inplace( x )`. -/
def native_to_big_inplace {α : Type} (native : order) (endian_reverse_inplace : α → α)
    (x : α) : α :=
  conditional_reverse_inplace endian_reverse_inplace native order.big x

/-- The function template `little_to_native_inplace( x )`. -/
def little_to_native_inplace {α : Type} (native : order) (endian_reverse_inplace : α → α)
    (x : α) : α :=
  conditional_reverse_inplace endian_reverse_inplace order.little native x

/-- The function template `native_to_little_inplace( x )`. -/
def native_to_little_inplace {α : Type} (native : order) (endian_reverse_inplace : α → α)
    (x : α) : α :=
  conditional_reverse_inplace endian_reverse_inplace native order.little x

/-! ## Types and the reversibility traits -/

/-- A C++ type, as far as the traits of `detail/type_traits.hpp` look at it.
`integral` stands for the integral types other than `bool`; a class type
records whether it converts implicitly to `int`. -/
inductive cpp_type where
  | bool
  | integral (T : integral_type)
  | unscoped_enum (underlying : integral_type)
  | scoped_enum (underlying : integral_type)
  | float
  | double
  | long_double
  | pointer
  | class_type (convertible_to_int : Bool)
  | array (element : cpp_type) (N : Nat)
deriving DecidableEq, Repr

/-- The library trait `is_integral<T>`; `bool` is an integral type. -/
def is_integral : cpp_type → Bool
  | .bool => true
  | .integral _ => true
  | _ => false

/-- The library trait `is_enum<T>`. -/
def is_enum : cpp_type → Bool
  | .unscoped_enum _ => true
  | .scoped_enum _ => true
  | _ => false

/-- The library trait `is_class<T>`. -/
def is_class : cpp_type → Bool
  | .class_type _ => true
  | _ => false

/-- The library trait `is_array<T>`. -/
def is_array : cpp_type → Bool
  | .array _ _ => true
  | _ => false

/-- The library trait `is_same<T, bool>`. -/
def is_same_bool : cpp_type → Bool
  | .bool => true
  | _ => false

/-- The library trait `is_same<T, float>`. -/
def is_same_float : cpp_type → Bool
  | .float => true
  | _ => false

/-- The library trait `is_same<T, double>`. -/
def is_same_double : cpp_type → Bool
  | .double => true
  | _ => false

/-- The library trait `is_convertible<T, int>`: arithmetic types and unscoped
enumerations convert implicitly to `int`, scoped enumerations, pointers and
arrays do not. -/
def is_convertible_int : cpp_type → Bool
  | .bool => true
  | .integral _ => true
  | .unscoped_enum _ => true
  | .scoped_enum _ => false
  | .float => true
  | .double => true
  | .long_double => true
  | .pointer => false
  | .class_type c => c
  | .array _ _ => false

/-- The trait `negation<T>`, on the value of `T`. -/
def negation (value : Bool) : Bool := !value

/-- The trait `is_scoped_enum<T>`:
`conditional< is_enum<T>::value, negation< is_convertible<T, int> >, false_type >::type`. -/
def is_scoped_enum (T : cpp_type) : Bool :=
  if is_enum T then negation (is_convertible_int T) else false

/-- The trait `is_endian_reversible<T>`. -/
def is_endian_reversible (T : cpp_type) : Bool :=
  (is_integral T && !is_same_bool T) || is_scoped_enum T

/-- The trait `is_endian_reversible_inplace<T>`. -/
def is_endian_reversible_inplace (T : cpp_type) : Bool :=
  is_integral T || is_enum T || is_same_float T || is_same_double T

/-- The `BOOST_ENDIAN_STATIC_ASSERT` of `endian_reverse( T x )`: `false` is a
build failure. -/
def endian_reverse_static_assert (T : cpp_type) : Bool :=
  is_endian_reversible T

/-- The `BOOST_ENDIAN_STATIC_ASSERT` of both forms of `conditional_reverse`:
`false` is a build failure. -/
def conditional_reverse_static_assert (T : cpp_type) : Bool :=
  is_class T || is_endian_reversible T

/-- The `BOOST_ENDIAN_STATIC_ASSERT` of `endian_reverse_inplace( T & x )` for a
non-class type: `false` is a build failure. -/
def endian_reverse_inplace_static_assert (T : cpp_type) : Bool :=
  is_endian_reversible_inplace T

/-! ## The load and store functions -/

/-- The type `detail::int16_t`. -/
def int16_t : integral_type := ⟨integral_by_size.uint16_t, true⟩

/-- The type `detail::uint16_t`. -/
def uint16_t : integral_type := ⟨integral_by_size.uint16_t, false⟩

/-- The type `detail::int32_t`. -/
def int32_t : integral_type := ⟨integral_by_size.uint32_t, true⟩

/-- The type `detail::uint32_t`. -/
def uint32_t : integral_type := ⟨integral_by_size.uint32_t, false⟩

/-- The type `detail::int64_t`. -/
def int64_t : integral_type := ⟨integral_by_size.uint64_t, true⟩

/-- The type `detail::uint64_t`. -/
def uint64_t : integral_type := ⟨integral_by_size.uint64_t, false⟩

/-- Modelled from the spec: the function template `endian_load<T, N, Order>( p )`
of `detail/endian_load.hpp`, which is not part of the sources at hand. It reads
the `N` bytes at `p` into an unsigned scratch integer, placed according to
`Order` and zero-filled above; if `T` is signed and the sign bit `8 * N - 1` is
set, the bits above the field are set to ones up to the width of `T`; the
scratch integer is then reinterpreted as `T`. -/
def endian_load (T : integral_type) (N : Nat) (Order : order) (p : List Nat) : Int :=
  let scratch := of_bytes Order (p.take N)
  let extended :=
    if T.is_signed && scratch.testBit (8 * N - 1) then
      scratch ||| (2 ^ T.uintN_t.bits - 2 ^ (8 * N))
    else
      scratch
  static_cast_T T extended

/-- Modelled from the spec: the function template
`endian_store<T, N, Order>( p, v )` of `detail/endian_store.hpp`, which is not
part of the sources at hand. It truncates the value to its low `8 * N` bits and
emits exactly `N` bytes in the order `Order`; the result is the new content of
the memory at `p`, whose bytes from `N` on are left as they were. -/
def endian_store (T : integral_type) (N : Nat) (Order : order) (p : List Nat) (v : Int) :
    List Nat :=
  to_bytes Order N (static_cast_uintN T.uintN_t v % 2 ^ (8 * N)) ++ p.drop N

/-- The function `load_little_s16( p )`. -/
def load_little_s16 (p : List Nat) : Int :=
  endian_load int16_t 2 order.little p

/-- The function `load_little_u16( p )`. -/
def load_little_u16 (p : List Nat) : Int :=
  endian_load uint16_t 2 order.little p

/-- The function `load_big_s16( p )`. -/
def load_big_s16 (p : List Nat) : Int :=
  endian_load int16_t 2 order.big p

/-- The function `load_big_u16( p )`. -/
def load_big_u16 (p : List Nat) : Int :=
  endian_load uint16_t 2 order.big p

/-- The function `load_little_s24( p )`. -/
def load_little_s24 (p : List Nat) : Int :=
  endian_load int32_t 3 order.little p

/-- The function `load_little_u24( p )`. -/
def load_little_u24 (p : List Nat) : Int :=
  endian_load uint32_t 3 order.little p

/-- The function `load_big_s24( p )`. -/
def load_big_s24 (p : List Nat) : Int :=
  endian_load int32_t 3 order.big p

/-- The function `load_big_u24( p )`. -/
def load_big_u24 (p : List Nat) : Int :=
  endian_load uint32_t 3 order.big p

/-- The function `load_little_s32( p )`. -/
def load_little_s32 (p : List Nat) : Int :=
  endian_load int32_t 4 order.little p

/-- The function `load_little_u32( p )`. -/
def load_little_u32 (p : List Nat) : Int :=
  endian_load uint32_t 4 order.little p

/-- The function `load_big_s32( p )`. -/
def load_big_s32 (p : List Nat) : Int :=
  endian_load int32_t 4 order.big p

/-- The function `load_big_u32( p )`. -/
def load_big_u32 (p : List Nat) : Int :=
  endian_load uint32_t 4 order.big p

/-- The function `load_little_s40( p )`. -/
def load_little_s40 (p : List Nat) : Int :=
  endian_load int64_t 5 order.little p

/-- The function `load_little_u40( p )`. -/
def load_little_u40 (p : List Nat) : Int :=
  endian_load uint64_t 5 order.little p

/-- The function `load_big_s40( p )`. -/
def load_big_s40 (p : List Nat) : Int :=
  endian_load int64_t 5 order.big p

/-- The function `load_big_u40( p )`. -/
def load_big_u40 (p : List Nat) : Int :=
  endian_load uint64_t 5 order.big p

/-- The function `load_little_s48( p )`. -/
def load_little_s48 (p : List Nat) : Int :=
  endian_load int64_t 6 order.little p

/-- The function `load_little_u48( p )`. -/
def load_little_u48 (p : List Nat) : Int :=
  endian_load uint64_t 6 order.little p

/-- The function `load_big_s48( p )`. -/
def load_big_s48 (p : List Nat) : Int :=
  endian_load int64_t 6 order.big p

/-- The function `load_big_u48( p )`. -/
def load_big_u48 (p : List Nat) : Int :=
  endian_load uint64_t 6 order.big p

/-- The function `load_little_s56( p )`. -/
def load_little_s56 (p : List Nat) : Int :=
  endian_load int64_t 7 order.little p

/-- The function `load_little_u56( p )`. -/
def load_little_u56 (p : List Nat) : Int :=
  endian_load uint64_t 7 order.little p

/-- The function `load_big_s56( p )`. -/
def load_big_s56 (p : List Nat) : Int :=
  endian_load int64_t 7 order.big p

/-- The function `load_big_u56( p )`. -/
def load_big_u56 (p : List Nat) : Int :=
  endian_load uint64_t 7 order.big p

/-- The function `load_little_s64( p )`. -/
def load_little_s64 (p : List Nat) : Int :=
  endian_load int64_t 8 order.little p

/-- The function `load_little_u64( p )`. -/
def load_little_u64 (p : List Nat) : Int :=
  endian_load uint64_t 8 order.little p

/-- The function `load_big_s64( p )`. -/
def load_big_s64 (p : List Nat) : Int :=
  endian_load int64_t 8 order.big p

/-- The function `load_big_u64( p )`. -/
def load_big_u64 (p : List Nat) : Int :=
  endian_load uint64_t 8 order.big p

/-- The function `store_little_s16( p, v )`. -/
def store_little_s16 (p : List Nat) (v : Int) : List Nat :=
  endian_store int16_t 2 order.little p v

/-- The function `store_little_u16( p, v )`. -/
def store_little_u16 (p : List Nat) (v : Int) : List Nat :=
  endian_store uint16_t 2 order.little p v

/-- The function `store_big_s16( p, v )`. -/
def store_big_s16 (p : List Nat) (v : Int) : List Nat :=
  endian_store int16_t 2 order.big p v

/-- The function `store_big_u16( p, v )`. -/
def store_big_u16 (p : List Nat) (v : Int) : List Nat :=
  endian_store uint16_t 2 order.big p v

/-- The function `store_little_s24( p, v )`. -/
def store_little_s24 (p : List Nat) (v : Int) : List Nat :=
  endian_store int32_t 3 order.little p v

/-- The function `store_little_u24( p, v )`. -/
def store_little_u24 (p : List Nat) (v : Int) : List Nat :=
  endian_store uint32_t 3 order.little p v

/-- The function `store_big_s24( p, v )`. -/
def store_big_s24 (p : List Nat) (v : Int) : List Nat :=
  endian_store int32_t 3 order.big p v

/-- The function `store_big_u24( p, v )`. -/
def store_big_u24 (p : List Nat) (v : Int) : List Nat :=
  endian_store uint32_t 3 order.big p v

/-- The function `store_little_s32( p, v )`. -/
def store_little_s32 (p : List Nat) (v : Int) : List Nat :=
  endian_store int32_t 4 order.little p v

/-- The function `store_little_u32( p, v )`. -/
def store_little_u32 (p : List Nat) (v : Int) : List Nat :=
  endian_store uint32_t 4 order.little p v

/-- The function `store_big_s32( p, v )`. -/
def store_big_s32 (p : List Nat) (v : Int) : List Nat :=
  endian_store int32_t 4 order.big p v

/-- The function `store_big_u32( p, v )`. -/
def store_big_u32 (p : List Nat) (v : Int) : List Nat :=
  endian_store uint32_t 4 order.big p v

/-- The function `store_little_s40( p, v )`. -/
def store_little_s40 (p : List Nat) (v : Int) : List Nat :=
  endian_store int64_t 5 order.little p v

/-- The function `store_little_u40( p, v )`. -/
def store_little_u40 (p : List Nat) (v : Int) : List Nat :=
  endian_store uint64_t 5 order.little p v

/-- The function `store_big_s40( p, v )`. -/
def store_big_s40 (p : List Nat) (v : Int) : List Nat :=
  endian_store int64_t 5 order.big p v

/-- The function `store_big_u40( p, v )`. -/
def store_big_u40 (p : List Nat) (v : Int) : List Nat :=
  endian_store uint64_t 5 order.big p v

/-- The function `store_little_s48( p, v )`. -/
def store_little_s48 (p : List Nat) (v : Int) : List Nat :=
  endian_store int64_t 6 order.little p v

/-- The function `store_little_u48( p, v )`. -/
def store_little_u48 (p : List Nat) (v : Int) : List Nat :=
  endian_store uint64_t 6 order.little p v

/-- The function `store_big_s48( p, v )`. -/
def store_big_s48 (p : List Nat) (v : Int) : List Nat :=
  endian_store int64_t 6 order.big p v

/-- The function `store_big_u48( p, v )`. -/
def store_big_u48 (p : List Nat) (v : Int) : List Nat :=
  endian_store uint64_t 6 order.big p v

/-- The function `store_little_s56( p, v )`. -/
def store_little_s56 (p : List Nat) (v : Int) : List Nat :=
  endian_store int64_t 7 order.little p v

/-- The function `store_little_u56( p, v )`. -/
def store_little_u56 (p : List Nat) (v : Int) : List Nat :=
  endian_store uint64_t 7 order.little p v

/-- The function `store_big_s56( p, v )`. -/
def store_big_s56 (p : List Nat) (v : Int) : List Nat :=
  endian_store int64_t 7 order.big p v

/-- The function `store_big_u56( p, v )`. -/
def store_big_u56 (p : List Nat) (v : Int) : List Nat :=
  endian_store uint64_t 7 order.big p v

/-- The function `store_little_s64( p, v )`. -/
def store_little_s64 (p : List Nat) (v : Int) : List Nat :=
  endian_store int64_t 8 order.little p v

/-- The function `store_little_u64( p, v )`. -/
def store_little_u64 (p : List Nat) (v : Int) : List Nat :=
  endian_store uint64_t 8 order.little p v

/-- The function `store_big_s64( p, v )`. -/
def store_big_s64 (p : List Nat) (v : Int) : List Nat :=
  endian_store int64_t 8 order.big p v

/-- The function `store_big_u64( p, v )`. -/
def store_big_u64 (p : List Nat) (v : Int) : List Nat :=
  endian_store uint64_t 8 order.big p v

/-- The widths of the load and store functions, in bits. -/
inductive field_bits where
  | b16
  | b24
  | b32
  | b40
  | b48
  | b56
  | b64
deriving DecidableEq, Repr

/-- The width in bits. -/
def field_bits.bits : field_bits → Nat
  | .b16 => 16
  | .b24 => 24
  | .b32 => 32
  | .b40 => 40
  | .b48 => 48
  | .b56 => 56
  | .b64 => 64

/-- The number of bytes of the field, the template argument `N` of the
functions of that width. -/
def field_bits.bytes : field_bits → Nat
  | .b16 => 2
  | .b24 => 3
  | .b32 => 4
  | .b40 => 5
  | .b48 => 6
  | .b56 => 7
  | .b64 => 8

/-- The unsigned type of the size of the template argument `T` of the functions
of that width: 16 bits for `b16`, 32 bits for `b24` and `b32`, 64 bits above. -/
def field_bits.storage : field_bits → integral_by_size
  | .b16 => integral_by_size.uint16_t
  | .b24 => integral_by_size.uint32_t
  | .b32 => integral_by_size.uint32_t
  | .b40 => integral_by_size.uint64_t
  | .b48 => integral_by_size.uint64_t
  | .b56 => integral_by_size.uint64_t
  | .b64 => integral_by_size.uint64_t

/-- The function `load_<order>_<s|u><bits>`, chosen by order, signedness and
width. -/
def load_function (Order : order) (is_signed : Bool) (w : field_bits) (p : List Nat) : Int :=
  match Order, is_signed, w with
  | .little, true, .b16 => load_little_s16 p
  | .little, true, .b24 => load_little_s24 p
  | .little, true, .b32 => load_little_s32 p
  | .little, true, .b40 => load_little_s40 p
  | .little, true, .b48 => load_little_s48 p
  | .little, true, .b56 => load_little_s56 p
  | .little, true, .b64 => load_little_s64 p
  | .little, false, .b16 => load_little_u16 p
  | .little, false, .b24 => load_little_u24 p
  | .little, false, .b32 => load_little_u32 p
  | .little, false, .b40 => load_little_u40 p
  | .little, false, .b48 => load_little_u48 p
  | .little, false, .b56 => load_little_u56 p
  | .little, false, .b64 => load_little_u64 p
  | .big, true, .b16 => load_big_s16 p
  | .big, true, .b24 => load_big_s24 p
  | .big, true, .b32 => load_big_s32 p
  | .big, true, .b40 => load_big_s40 p
  | .big, true, .b48 => load_big_s48 p
  | .big, true, .b56 => load_big_s56 p
  | .big, true, .b64 => load_big_s64 p
  | .big, false, .b16 => load_big_u16 p
  | .big, false, .b24 => load_big_u24 p
  | .big, false, .b32 => load_big_u32 p
  | .big, false, .b40 => load_big_u40 p
  | .big, false, .b48 => load_big_u48 p
  | .big, false, .b56 => load_big_u56 p
  | .big, false, .b64 => load_big_u64 p

/-- The function `store_<order>_<s|u><bits>`, chosen by order, signedness and
width. -/
def store_function (Order : order) (is_signed : Bool) (w : field_bits) (p : List Nat)
    (v : Int) : List Nat :=
  match Order, is_signed, w with
  | .little, true, .b16 => store_little_s16 p v
  | .little, true, .b24 => store_little_s24 p v
  | .little, true, .b32 => store_little_s32 p v
  | .little, true, .b40 => store_little_s40 p v
  | .little, true, .b48 => store_little_s48 p v
  | .little, true, .b56 => store_little_s56 p v
  | .little, true, .b64 => store_little_s64 p v
  | .little, false, .b16 => store_little_u16 p v
  | .little, false, .b24 => store_little_u24 p v
  | .little, false, .b32 => store_little_u32 p v
  | .little, false, .b40 => store_little_u40 p v
  | .little, false, .b48 => store_little_u48 p v
  | .little, false, .b56 => store_little_u56 p v
  | .little, false, .b64 => store_little_u64 p v
  | .big, true, .b16 => store_big_s16 p v
  | .big, true, .b24 => store_big_s24 p v
  | .big, true, .b32 => store_big_s32 p v
  | .big, true, .b40 => store_big_s40 p v
  | .big, true, .b48 => store_big_s48 p v
  | .big, true, .b56 => store_big_s56 p v
  | .big, true, .b64 => store_big_s64 p v
  | .big, false, .b16 => store_big_u16 p v
  | .big, false, .b24 => store_big_u24 p v
  | .big, false, .b32 => store_big_u32 p v
  | .big, false, .b40 => store_big_u40 p v
  | .big, false, .b48 => store_big_u48 p v
  | .big, false, .b56 => store_big_u56 p v
  | .big, false, .b64 => store_big_u64 p v

/-- The value `v` is representable in `bits` bits, as an unsigned value
(`0 <= v < 2 ^ bits`) or as a signed one
(`-2 ^ (bits - 1) <= v < 2 ^ (bits - 1)`). -/
def representable (is_signed : Bool) (bits : Nat) (v : Int) : Prop :=
  if is_signed then
    -(2 : Int) ^ (bits - 1) ≤ v ∧ v < (2 : Int) ^ (bits - 1)
  else
    0 ≤ v ∧ v < (2 : Int) ^ bits

/-! ## The arithmetic wrapper -/

/-- The type of an operand of type `T` after the integral promotions, with an
`int` of 32 bits: `int` for a `T` narrower than `int`, `T` itself otherwise. -/
def promoted (T : integral_type) : integral_type :=
  if T.uintN_t.bits < 32 then int32_t else T

/-- The value of an arithmetic expression of type `P` whose mathematical result
is `r`: for an unsigned `P` the result modulo `2 ^ bits`; for a signed `P` the
result if `P` can represent it, and undefined behaviour (`none`) otherwise. -/
def arithmetic_result (P : integral_type) (r : Int) : Option Int :=
  if P.is_signed then
    if -(2 : Int) ^ (P.uintN_t.bits - 1) ≤ r ∧ r < (2 : Int) ^ (P.uintN_t.bits - 1) then
      some r
    else
      none
  else
    some (r % (2 : Int) ^ P.uintN_t.bits)

/-- The binary operators of the compound assignments of `endian_arithmetic`. -/
inductive binary_operator where
  | plus
  | minus
  | times
  | divide
  | modulo
  | bit_and
  | bit_or
  | bit_xor
  | shift_left
  | shift_right
deriving DecidableEq, Repr

/-- The value of the built-in expression `a op y` on two operands of type `T`,
computed in the promoted type; `none` is undefined behaviour: signed overflow,
a zero divisor, a quotient that is not representable, a shift count that is
negative or not below the width, a left shift of a negative value or one whose
result the unsigned type of the same width cannot hold. A right shift of a
negative value is the arithmetic shift. The bitwise operators work on the
two's-complement bit patterns. -/
def builtin (T : integral_type) (op : binary_operator) (a y : Int) : Option Int :=
  let P := promoted T
  match op with
  | .plus => arithmetic_result P (a + y)
  | .minus => arithmetic_result P (a - y)
  | .times => arithmetic_result P (a * y)
  | .divide => if y = 0 then none else arithmetic_result P (Int.tdiv a y)
  | .modulo =>
    if y = 0 then none else (arithmetic_result P (Int.tdiv a y)).map (fun _ => Int.tmod a y)
  | .bit_and =>
    some (static_cast_T P (static_cast_uintN P.uintN_t a &&& static_cast_uintN P.uintN_t y))
  | .bit_or =>
    some (static_cast_T P (static_cast_uintN P.uintN_t a ||| static_cast_uintN P.uintN_t y))
  | .bit_xor =>
    some (static_cast_T P (static_cast_uintN P.uintN_t a ^^^ static_cast_uintN P.uintN_t y))
  | .shift_left =>
    if y < 0 ∨ (P.uintN_t.bits : Int) ≤ y then none
    else if P.is_signed then
      if 0 ≤ a ∧ a * (2 : Int) ^ y.toNat < (2 : Int) ^ P.uintN_t.bits then
        some (static_cast_T P (a * (2 : Int) ^ y.toNat).toNat)
      else
        none
    else
      some (a * (2 : Int) ^ y.toNat % (2 : Int) ^ P.uintN_t.bits)
  | .shift_right =>
    if y < 0 ∨ (P.uintN_t.bits : Int) ≤ y then none else some (a / (2 : Int) ^ y.toNat)

/-- The conversion `static_cast<T>( r )` of a value `r` of the promoted type:
the value of `T` with the bit pattern of `r` modulo `2 ^ bits`. -/
def static_cast (T : integral_type) (r : Int) : Int :=
  static_cast_T T (static_cast_uintN T.uintN_t r)

/-- Modelled from the spec: the class template
`endian_buffer<Order, T, n_bits, Align>` of `buffers.hpp`, which is not part of
the sources at hand: it owns the `n_bits / 8` bytes `data`. An aligned buffer
has `n_bits` equal to the width of `T` and the same observable `value()` and
assignment, so `Align` is left out. -/
structure endian_buffer (Order : order) (T : integral_type) (n_bits : Nat) where
  data : List Nat
deriving DecidableEq, Repr

/-- Modelled from the spec: the member `endian_buffer::value()`, which runs the
load codec over the owned bytes. -/
def endian_buffer.value {Order : order} {T : integral_type} {n_bits : Nat}
    (b : endian_buffer Order T n_bits) : Int :=
  endian_load T (n_bits / 8) Order b.data

/-- Modelled from the spec: the member `endian_buffer::operator=( T val )`, which
runs the store codec and overwrites the owned bytes. -/
def endian_buffer.assign {Order : order} {T : integral_type} {n_bits : Nat}
    (b : endian_buffer Order T n_bits) (val : Int) : endian_buffer Order T n_bits :=
  ⟨endian_store T (n_bits / 8) Order b.data val⟩

/-- Modelled from the spec: the constructor `endian_buffer( T val )`, which
stores `val` into the `n_bits / 8` owned bytes. -/
def endian_buffer.construct (Order : order) (T : integral_type) (n_bits : Nat) (val : Int) :
    endian_buffer Order T n_bits :=
  ⟨endian_store T (n_bits / 8) Order (List.replicate (n_bits / 8) 0) val⟩

/-- The class template `endian_arithmetic<Order, T, n_bits, Align>`: its only
data member is the buffer `buf_`. -/
structure endian_arithmetic (Order : order) (T : integral_type) (n_bits : Nat) where
  buf_ : endian_buffer Order T n_bits
deriving DecidableEq, Repr

/-- The constructor `endian_arithmetic( T val )`: `buf_( val )`. -/
def endian_arithmetic.construct (Order : order) (T : integral_type) (n_bits : Nat) (val : Int) :
    endian_arithmetic Order T n_bits :=
  ⟨endian_buffer.construct Order T n_bits val⟩

/-- The member `operator=( T val )`: `buf_ = val`; the result is the new state
of the object. -/
def endian_arithmetic.assign {Order : order} {T : integral_type} {n_bits : Nat}
    (x : endian_arithmetic Order T n_bits) (val : Int) :
    endian_arithmetic Order T n_bits :=
  ⟨x.buf_.assign val⟩

/-- The member `value()`. -/
def endian_arithmetic.value {Order : order} {T : integral_type} {n_bits : Nat}
    (x : endian_arithmetic Order T n_bits) : Int :=
  x.buf_.value

/-- The member `data()`: the owned bytes. -/
def endian_arithmetic.data {Order : order} {T : integral_type} {n_bits : Nat}
    (x : endian_arithmetic Order T n_bits) : List Nat :=
  x.buf_.data

/-- The conversion `operator value_type()`. -/
def endian_arithmetic.operator_value_type {Order : order} {T : integral_type} {n_bits : Nat}
    (x : endian_arithmetic Order T n_bits) : Int :=
  x.value

/-- The member `operator+=( T y )`: `*this = static_cast<T>( this->value() + y )`;
the result is the new state of the object, `none` when the expression is
undefined. -/
def endian_arithmetic.operator_plus_assign {Order : order} {T : integral_type} {n_bits : Nat}
    (x : endian_arithmetic Order T n_bits) (y : Int) :
    Option (endian_arithmetic Order T n_bits) :=
  (builtin T binary_operator.plus x.value y).map (fun r => x.assign (static_cast T r))

/-- The member `operator-=( T y )`. -/
def endian_arithmetic.operator_minus_assign {Order : order} {T : integral_type} {n_bits : Nat}
    (x : endian_arithmetic Order T n_bits) (y : Int) :
    Option (endian_arithmetic Order T n_bits) :=
  (builtin T binary_operator.minus x.value y).map (fun r => x.assign (static_cast T r))

/-- The member `operator*=( T y )`. -/
def endian_arithmetic.operator_times_assign {Order : order} {T : integral_type} {n_bits : Nat}
    (x : endian_arithmetic Order T n_bits) (y : Int) :
    Option (endian_arithmetic Order T n_bits) :=
  (builtin T binary_operator.times x.value y).map (fun r => x.assign (static_cast T r))

/-- The member `operator/=( T y )`. -/
def endian_arithmetic.operator_divide_assign {Order : order} {T : integral_type} {n_bits : Nat}
    (x : endian_arithmetic Order T n_bits) (y : Int) :
    Option (endian_arithmetic Order T n_bits) :=
  (builtin T binary_operator.divide x.value y).map (fun r => x.assign (static_cast T r))

/-- The member `operator%=( T y )`. -/
def endian_arithmetic.operator_modulo_assign {Order : order} {T : integral_type} {n_bits : Nat}
    (x : endian_arithmetic Order T n_bits) (y : Int) :
    Option (endian_arithmetic Order T n_bits) :=
  (builtin T binary_operator.modulo x.value y).map (fun r => x.assign (static_cast T r))

/-- The member `operator&=( T y )`. -/
def endian_arithmetic.operator_and_assign {Order : order} {T : integral_type} {n_bits : Nat}
    (x : endian_arithmetic Order T n_bits) (y : Int) :
    Option (endian_arithmetic Order T n_bits) :=
  (builtin T binary_operator.bit_and x.value y).map (fun r => x.assign (static_cast T r))

/-- The member `operator|=( T y )`. -/
def endian_arithmetic.operator_or_assign {Order : order} {T : integral_type} {n_bits : Nat}
    (x : endian_arithmetic Order T n_bits) (y : Int) :
    Option (endian_arithmetic Order T n_bits) :=
  (builtin T binary_operator.bit_or x.value y).map (fun r => x.assign (static_cast T r))

/-- The member `operator^=( T y )`. -/
def endian_arithmetic.operator_xor_assign {Order : order} {T : integral_type} {n_bits : Nat}
    (x : endian_arithmetic Order T n_bits) (y : Int) :
    Option (endian_arithmetic Order T n_bits) :=
  (builtin T binary_operator.bit_xor x.value y).map (fun r => x.assign (static_cast T r))

/-- The member `operator<<=( T y )`. -/
def endian_arithmetic.operator_shift_left_assign {Order : order} {T : integral_type} {n_bits : Nat}
    (x : endian_arithmetic Order T n_bits) (y : Int) :
    Option (endian_arithmetic Order T n_bits) :=
  (builtin T binary_operator.shift_left x.value y).map (fun r => x.assign (static_cast T r))

/-- The member `operator>>=( T y )`. -/
def endian_arithmetic.operator_shift_right_assign {Order : order} {T : integral_type} {n_bits : Nat}
    (x : endian_arithmetic Order T n_bits) (y : Int) :
    Option (endian_arithmetic Order T n_bits) :=
  (builtin T binary_operator.shift_right x.value y).map (fun r => x.assign (static_cast T r))

/-- The compound assignment `x op= y`, chosen by its operator. -/
def endian_arithmetic.operator_assign {Order : order} {T : integral_type} {n_bits : Nat}
    (op : binary_operator) (x : endian_arithmetic Order T n_bits) (y : Int) :
    Option (endian_arithmetic Order T n_bits) :=
  match op with
  | .plus => x.operator_plus_assign y
  | .minus => x.operator_minus_assign y
  | .times => x.operator_times_assign y
  | .divide => x.operator_divide_assign y
  | .modulo => x.operator_modulo_assign y
  | .bit_and => x.operator_and_assign y
  | .bit_or => x.operator_or_assign y
  | .bit_xor => x.operator_xor_assign y
  | .shift_left => x.operator_shift_left_assign y
  | .shift_right => x.operator_shift_right_assign y

/-- The prefix `operator++()`: `*this += 1; return *this;`. The result is the
new state of the object, which the returned reference denotes. -/
def endian_arithmetic.operator_pre_increment {Order : order} {T : integral_type} {n_bits : Nat}
    (x : endian_arithmetic Order T n_bits) :
    Option (endian_arithmetic Order T n_bits) :=
  x.operator_plus_assign 1

/-- The prefix `operator--()`: `*this -= 1; return *this;`. -/
def endian_arithmetic.operator_pre_decrement {Order : order} {T : integral_type} {n_bits : Nat}
    (x : endian_arithmetic Order T n_bits) :
    Option (endian_arithmetic Order T n_bits) :=
  x.operator_minus_assign 1

/-- The postfix `operator++(int)`: `endian_arithmetic tmp( *this ); *this += 1;
return tmp;`. The result is the returned copy and the new state of the
object. -/
def endian_arithmetic.operator_post_increment {Order : order} {T : integral_type} {n_bits : Nat}
    (x : endian_arithmetic Order T n_bits) :
    Option (endian_arithmetic Order T n_bits × endian_arithmetic Order T n_bits) :=
  let tmp := x
  (x.operator_plus_assign 1).map (fun x1 => (tmp, x1))

/-- The postfix `operator--(int)`. -/
def endian_arithmetic.operator_post_decrement {Order : order} {T : integral_type} {n_bits : Nat}
    (x : endian_arithmetic Order T n_bits) :
    Option (endian_arithmetic Order T n_bits × endian_arithmetic Order T n_bits) :=
  let tmp := x
  (x.operator_minus_assign 1).map (fun x1 => (tmp, x1))

/-- The expression `a == b` on two wrappers over the same `T`: the class
declares no comparison, both operands convert through `operator value_type()`
and the built-in `==` compares the two values. -/
def endian_arithmetic.operator_eq {T : integral_type} {O1 O2 : order} {n1 n2 : Nat}
    (a : endian_arithmetic O1 T n1)
    (b : endian_arithmetic O2 T n2) : Bool :=
  decide (a.operator_value_type = b.operator_value_type)

/-- The expression `a < b` on two wrappers over the same `T`, through
`operator value_type()` as well. -/
def endian_arithmetic.operator_lt {T : integral_type} {O1 O2 : order} {n1 n2 : Nat}
    (a : endian_arithmetic O1 T n1)
    (b : endian_arithmetic O2 T n2) : Bool :=
  decide (a.operator_value_type < b.operator_value_type)

/-- The typedef `big_uint24_t`: `endian_arithmetic<order::big, uint_least32_t, 24>`,
with `uint_least32_t` the 32-bit unsigned type. -/
@[reducible] def big_uint24_t : Type := endian_arithmetic order.big uint32_t 24

/-! ## Reversal in place on object representations -/

/-- The type `integral_by_size< sizeof(T) >::type` of a scalar type `T`, with a
`bool` of one byte, a `float` of four and a `double` of eight bytes, and an
enumeration of the size of its underlying type; `none` for the other types. -/
def integral_by_size_of : cpp_type → Option integral_by_size
  | .bool => some integral_by_size.uint8_t
  | .integral T => some T.uintN_t
  | .unscoped_enum U => some U.uintN_t
  | .scoped_enum U => some U.uintN_t
  | .float => some integral_by_size.uint32_t
  | .double => some integral_by_size.uint64_t
  | _ => none

/-- The function template `endian_reverse_inplace( T & x )` for a non-class
type, on the object representation of `x`: the bytes of `x` in memory, `N` being
`integral_by_size< sizeof(T) >::type`. The first `std::memcpy` gives `x2` the
bytes of `x`, the second one gives `x` the bytes of `x2`; the result is the new
object representation of `x`. -/
def endian_reverse_inplace_bytes (native : order) (no_intrinsics : Bool)
    (N : integral_by_size) (x : List Nat) : List Nat :=
  let x2 := of_bytes native x
  let x2 := endian_reverse_impl no_intrinsics N x2
  to_bytes native N.size x2

/-- The function template `endian_reverse_inplace( T & x )` for a non-class type
`T` with its `BOOST_ENDIAN_STATIC_ASSERT`, on the object representation of `x`;
`none` is a build failure. -/
def endian_reverse_inplace_scalar (native : order) (no_intrinsics : Bool) (T : cpp_type)
    (x : List Nat) : Option (List Nat) :=
  if endian_reverse_inplace_static_assert T then
    (integral_by_size_of T).map (fun N => endian_reverse_inplace_bytes native no_intrinsics N x)
  else
    none

/-! ## Bits of the operands -/

theorem testBit_byte_of (x i k : Nat) :
    (byte_of x i).testBit k = (decide (k < 8) && x.testBit (8 * i + k)) := by
  unfold byte_of
  rw [show (256 : Nat) = 2 ^ 8 from rfl, Nat.testBit_mod_two_pow, ← Nat.shiftRight_eq_div_pow,
    Nat.testBit_shiftRight]

theorem testBit_eq_false_of_lt {x w : Nat} (hx : x < 2 ^ w) (k : Nat) (hk : w ≤ k) :
    x.testBit k = false :=
  Nat.testBit_lt_two_pow (lt_of_lt_of_le hx (Nat.pow_le_pow_right (by norm_num) hk))

theorem byte_swap_lt (n x : Nat) : byte_swap n x < 2 ^ (8 * n) := by
  induction n generalizing x with
  | zero => simp [byte_swap]
  | succ n ih =>
    have h1 := ih (x / 256)
    have h2 : x % 256 < 256 := Nat.mod_lt _ (by norm_num)
    have h3 : 2 ^ (8 * (n + 1)) = 2 ^ (8 * n) * 256 := by
      rw [Nat.mul_add, Nat.pow_add]
    rw [byte_swap, h3]
    calc 2 ^ (8 * n) * (x % 256) + byte_swap n (x / 256)
        < 2 ^ (8 * n) * (x % 256) + 2 ^ (8 * n) := by omega
      _ = 2 ^ (8 * n) * (x % 256 + 1) := by ring
      _ ≤ 2 ^ (8 * n) * 256 := Nat.mul_le_mul_left _ (by omega)

theorem testBit_byte_swap (n x j : Nat) :
    (byte_swap n x).testBit j
      = (decide (j < 8 * n) && x.testBit (8 * (n - 1 - j / 8) + j % 8)) := by
  induction n generalizing x j with
  | zero => simp [byte_swap]
  | succ n ih =>
    rw [byte_swap, Nat.testBit_mul_pow_two_add _ (byte_swap_lt n (x / 256)), Nat.add_sub_cancel]
    by_cases h : j < 8 * n
    · have e : 8 * (n - j / 8) + j % 8 = 8 + (8 * (n - 1 - j / 8) + j % 8) := by omega
      have hj : j < 8 * (n + 1) := by omega
      rw [if_pos h, ih, e, show (256 : Nat) = 2 ^ 8 from rfl, ← Nat.shiftRight_eq_div_pow,
        Nat.testBit_shiftRight]
      simp [h, hj]
    · rw [if_neg h, show (256 : Nat) = 2 ^ 8 from rfl, Nat.testBit_mod_two_pow]
      by_cases h2 : j < 8 * (n + 1)
      · have e : 8 * (n - j / 8) + j % 8 = j - 8 * n := by omega
        have h3 : j - 8 * n < 8 := by omega
        simp [h2, h3, e]
      · have h3 : ¬ (j - 8 * n < 8) := by omega
        simp [h2, h3]

theorem byte_of_byte_swap (n x i : Nat) (hi : i < n) :
    byte_of (byte_swap n x) i = byte_of x (n - 1 - i) := by
  apply Nat.eq_of_testBit_eq
  intro k
  rw [testBit_byte_of, testBit_byte_of, testBit_byte_swap]
  by_cases hk : k < 8
  · have h1 : 8 * i + k < 8 * n := by omega
    have h2 : 8 * (n - 1 - (8 * i + k) / 8) + (8 * i + k) % 8 = 8 * (n - 1 - i) + k := by omega
    simp [hk, h1, h2]
  · simp [hk]

theorem byte_swap_byte_swap (n x : Nat) (hx : x < 2 ^ (8 * n)) :
    byte_swap n (byte_swap n x) = x := by
  apply Nat.eq_of_testBit_eq
  intro j
  rw [testBit_byte_swap, testBit_byte_swap]
  by_cases hj : j < 8 * n
  · have h1 : 8 * (n - 1 - j / 8) + j % 8 < 8 * n := by omega
    have h2 : 8 * (n - 1 - (8 * (n - 1 - j / 8) + j % 8) / 8) + (8 * (n - 1 - j / 8) + j % 8) % 8
        = j := by omega
    rw [h2]
    simp [hj, h1]
  · simp [hj, testBit_eq_false_of_lt hx j (by omega)]

/-- A value below `2 ^ (8 * n)` is determined by its `n` low bytes. -/
theorem eq_of_byte_of_eq (n x y : Nat) (hx : x < 2 ^ (8 * n)) (hy : y < 2 ^ (8 * n))
    (h : ∀ i, i < n → byte_of x i = byte_of y i) : x = y := by
  apply Nat.eq_of_testBit_eq
  intro j
  by_cases hj : j < 8 * n
  · have h1 := congrArg (fun v => Nat.testBit v (j % 8)) (h (j / 8) (by omega))
    have h2 : j % 8 < 8 := Nat.mod_lt _ (by norm_num)
    have h3 : 8 * (j / 8) + j % 8 = j := by omega
    simpa [testBit_byte_of, h2, h3] using h1
  · rw [testBit_eq_false_of_lt hx j (by omega), testBit_eq_false_of_lt hy j (by omega)]

/-! ## The masks of the portable implementation -/

theorem testBit_mask_ff00ff00 (j : Nat) :
    Nat.testBit 0xff00ff00 j = decide (j < 32 ∧ j / 8 % 2 = 1) := by
  by_cases h : j < 32
  · interval_cases j <;> rfl
  · rw [testBit_eq_false_of_lt (show 0xff00ff00 < 2 ^ 32 by norm_num) j (by omega)]
    simp [h]

theorem testBit_mask_00ff00ff (j : Nat) :
    Nat.testBit 0x00ff00ff j = decide (j < 32 ∧ j / 8 % 2 = 0) := by
  by_cases h : j < 32
  · interval_cases j <;> rfl
  · rw [testBit_eq_false_of_lt (show 0x00ff00ff < 2 ^ 32 by norm_num) j (by omega)]
    simp [h]

theorem testBit_mask_0000FFFF0000FFFF (j : Nat) :
    Nat.testBit 0x0000FFFF0000FFFF j = decide (j < 64 ∧ j / 16 % 2 = 0) := by
  by_cases h : j < 64
  · interval_cases j <;> rfl
  · rw [testBit_eq_false_of_lt (show 0x0000FFFF0000FFFF < 2 ^ 64 by norm_num) j (by omega)]
    simp [h]

theorem testBit_mask_FFFF0000FFFF0000 (j : Nat) :
    Nat.testBit 0xFFFF0000FFFF0000 j = decide (j < 64 ∧ j / 16 % 2 = 1) := by
  by_cases h : j < 64
  · interval_cases j <;> rfl
  · rw [testBit_eq_false_of_lt (show 0xFFFF0000FFFF0000 < 2 ^ 64 by norm_num) j (by omega)]
    simp [h]

theorem testBit_mask_00FF00FF00FF00FF (j : Nat) :
    Nat.testBit 0x00FF00FF00FF00FF j = decide (j < 64 ∧ j / 8 % 2 = 0) := by
  by_cases h : j < 64
  · interval_cases j <;> rfl
  · rw [testBit_eq_false_of_lt (show 0x00FF00FF00FF00FF < 2 ^ 64 by norm_num) j (by omega)]
    simp [h]

theorem testBit_mask_FF00FF00FF00FF00 (j : Nat) :
    Nat.testBit 0xFF00FF00FF00FF00 j = decide (j < 64 ∧ j / 8 % 2 = 1) := by
  by_cases h : j < 64
  · interval_cases j <;> rfl
  · rw [testBit_eq_false_of_lt (show 0xFF00FF00FF00FF00 < 2 ^ 64 by norm_num) j (by omega)]
    simp [h]

/-! ## Each overload reverses the bytes of its operand -/

theorem endian_reverse_impl_uint8_eq (x : Nat) (hx : x < 2 ^ 8) :
    endian_reverse_impl_uint8 x = byte_swap 1 x := by
  simp only [endian_reverse_impl_uint8, byte_swap]
  omega

theorem endian_reverse_impl_uint16_eq (no_intrinsics : Bool) (x : Nat) (hx : x < 2 ^ 16) :
    endian_reverse_impl_uint16 no_intrinsics x = byte_swap 2 x := by
  cases no_intrinsics
  · rfl
  · apply Nat.eq_of_testBit_eq
    intro j
    have hhi := testBit_eq_false_of_lt hx
    simp only [endian_reverse_impl_uint16, if_true, testBit_byte_swap, Nat.testBit_or,
      Nat.testBit_mod_two_pow, Nat.testBit_shiftLeft, Nat.testBit_shiftRight]
    by_cases h : j < 16
    · interval_cases j <;> simp [hhi]
    · simp [h]

theorem endian_reverse_impl_uint32_eq (no_intrinsics : Bool) (x : Nat) (hx : x < 2 ^ 32) :
    endian_reverse_impl_uint32 no_intrinsics x = byte_swap 4 x := by
  cases no_intrinsics
  · rfl
  · apply Nat.eq_of_testBit_eq
    intro j
    have hhi := testBit_eq_false_of_lt hx
    simp only [endian_reverse_impl_uint32, if_true, testBit_byte_swap, Nat.testBit_or,
      Nat.testBit_and, Nat.testBit_mod_two_pow, Nat.testBit_shiftLeft, Nat.testBit_shiftRight,
      testBit_mask_ff00ff00, testBit_mask_00ff00ff]
    by_cases h : j < 32
    · interval_cases j <;> simp [hhi]
    · simp [h]

theorem endian_reverse_impl_uint64_eq (no_intrinsics : Bool) (x : Nat) (hx : x < 2 ^ 64) :
    endian_reverse_impl_uint64 no_intrinsics x = byte_swap 8 x := by
  cases no_intrinsics
  · rfl
  · apply Nat.eq_of_testBit_eq
    intro j
    have hhi := testBit_eq_false_of_lt hx
    simp only [endian_reverse_impl_uint64, if_true, testBit_byte_swap, Nat.testBit_or,
      Nat.testBit_and, Nat.testBit_mod_two_pow, Nat.testBit_shiftLeft, Nat.testBit_shiftRight,
      testBit_mask_0000FFFF0000FFFF, testBit_mask_FFFF0000FFFF0000,
      testBit_mask_00FF00FF00FF00FF, testBit_mask_FF00FF00FF00FF00]
    by_cases h : j < 64
    · interval_cases j <;> simp [hhi]
    · have h8 : ¬ (8 + j < 64) := by omega
      simp [h, h8]

theorem endian_reverse_impl_uint128_eq (no_intrinsics : Bool) (x : Nat) (hx : x < 2 ^ 128) :
    endian_reverse_impl_uint128 no_intrinsics x = byte_swap 16 x := by
  have hlo : x % 2 ^ 64 < 2 ^ 64 := Nat.mod_lt _ (by norm_num)
  have hhi : (x >>> 64) % 2 ^ 64 < 2 ^ 64 := Nat.mod_lt _ (by norm_num)
  have hx2 := testBit_eq_false_of_lt hx
  apply Nat.eq_of_testBit_eq
  intro j
  simp only [endian_reverse_impl_uint128, endian_reverse_impl_uint64_eq _ _ hlo,
    endian_reverse_impl_uint64_eq _ _ hhi, testBit_byte_swap, Nat.testBit_or,
    Nat.testBit_mod_two_pow, Nat.testBit_shiftLeft, Nat.testBit_shiftRight]
  by_cases h : j < 128
  · interval_cases j <;> simp [hx2]
  · simp [h]
    omega

theorem endian_reverse_impl_eq (no_intrinsics : Bool) (N : integral_by_size) (x : Nat)
    (hx : x < 2 ^ N.bits) : endian_reverse_impl no_intrinsics N x = byte_swap N.size x := by
  cases N
  · exact endian_reverse_impl_uint8_eq x hx
  · exact endian_reverse_impl_uint16_eq no_intrinsics x hx
  · exact endian_reverse_impl_uint32_eq no_intrinsics x hx
  · exact endian_reverse_impl_uint64_eq no_intrinsics x hx
  · exact endian_reverse_impl_uint128_eq no_intrinsics x hx

/-! ## The two conversions of `endian_reverse` -/

theorem static_cast_uintN_lt (N : integral_by_size) (x : Int) :
    static_cast_uintN N x < 2 ^ N.bits := by
  unfold static_cast_uintN
  cases N <;> simp only [integral_by_size.bits, integral_by_size.size] <;> omega

theorem static_cast_T_in_range (T : integral_type) (u : Nat) (hu : u < 2 ^ T.uintN_t.bits) :
    T.in_range (static_cast_T T u) := by
  obtain ⟨N, sg⟩ := T
  unfold integral_type.in_range static_cast_T
  cases N <;> cases sg <;>
    simp only [integral_by_size.bits, integral_by_size.size, Bool.true_and, Bool.false_and,
      decide_eq_true_eq, if_true, Bool.false_eq_true, if_false] at hu ⊢ <;>
    omega

theorem static_cast_uintN_static_cast_T (T : integral_type) (u : Nat)
    (hu : u < 2 ^ T.uintN_t.bits) : static_cast_uintN T.uintN_t (static_cast_T T u) = u := by
  obtain ⟨N, sg⟩ := T
  unfold static_cast_uintN static_cast_T
  cases N <;> cases sg <;>
    simp only [integral_by_size.bits, integral_by_size.size, Bool.true_and, Bool.false_and,
      decide_eq_true_eq, if_true, Bool.false_eq_true, if_false] at hu ⊢ <;>
    omega

theorem static_cast_T_static_cast_uintN (T : integral_type) (x : Int) (hx : T.in_range x) :
    static_cast_T T (static_cast_uintN T.uintN_t x) = x := by
  obtain ⟨N, sg⟩ := T
  unfold integral_type.in_range at hx
  unfold static_cast_uintN static_cast_T
  cases N <;> cases sg <;>
    simp only [integral_by_size.bits, integral_by_size.size, Bool.true_and, Bool.false_and,
      decide_eq_true_eq, if_true, Bool.false_eq_true, if_false] at hx ⊢ <;>
    omega

theorem endian_reverse_eq_byte_swap (no_intrinsics : Bool) (T : integral_type) (x : Int) :
    endian_reverse no_intrinsics T x
      = static_cast_T T (byte_swap T.uintN_t.size (static_cast_uintN T.uintN_t x)) := by
  unfold endian_reverse
  rw [endian_reverse_impl_eq _ _ _ (static_cast_uintN_lt _ _)]

/-! ## The claims -/

/-- C1: for every non-bool integer type `T` (signed or unsigned, of 8, 16, 32 or
64 bits, and of 128 bits as well) and every value `x` of `T`,
`endian_reverse(endian_reverse(x)) == x`, with the portable implementation and
with the intrinsics. -/
theorem endian_reverse_endian_reverse (no_intrinsics : Bool) (T : integral_type) (x : Int)
    (hx : T.in_range x) :
    endian_reverse no_intrinsics T (endian_reverse no_intrinsics T x) = x := by
  have hu := static_cast_uintN_lt T.uintN_t x
  have hv : byte_swap T.uintN_t.size (static_cast_uintN T.uintN_t x) < 2 ^ T.uintN_t.bits :=
    byte_swap_lt _ _
  rw [endian_reverse_eq_byte_swap, endian_reverse_eq_byte_swap,
    static_cast_uintN_static_cast_T T _ hv, byte_swap_byte_swap _ _ hu,
    static_cast_T_static_cast_uintN T x hx]

/-- Witness of C1: the value `-2` of `int32_t` with the portable implementation. -/
theorem endian_reverse_endian_reverse_witness :
    (integral_type.mk integral_by_size.uint32_t true).in_range (-2) ∧
      endian_reverse true ⟨integral_by_size.uint32_t, true⟩
        (endian_reverse true ⟨integral_by_size.uint32_t, true⟩ (-2)) = -2 :=
  have h : (integral_type.mk integral_by_size.uint32_t true).in_range (-2) := by
    simp [integral_type.in_range, integral_by_size.bits, integral_by_size.size]
  ⟨h, endian_reverse_endian_reverse true ⟨integral_by_size.uint32_t, true⟩ (-2) h⟩

/-- C2: for every order `O` (`big`, `little`, and `native`, which is one of the
two) and every `x`, `conditional_reverse<O, O>(x)` returns `x`: the tag
`From == To` is `true_type`, the call goes to the `true_type` overload of
`conditional_reverse_impl`, and that overload returns `x` whatever function
`endian_reverse` is, so the result does not depend on `endian_reverse`. -/
theorem conditional_reverse_same_order {α : Type} (endian_reverse : α → α) (O : order) (x : α) :
    conditional_reverse endian_reverse O O x = x ∧
      decide (O = O) = true ∧
      conditional_reverse endian_reverse O O x = conditional_reverse_impl endian_reverse x true ∧
      (∀ f : α → α, conditional_reverse_impl f x true = x) ∧
      (∀ f : α → α, conditional_reverse f O O x = conditional_reverse endian_reverse O O x) := by
  simp [conditional_reverse, conditional_reverse_impl]

/-- C3: for every `x`, `conditional_reverse<big, little>(x) == endian_reverse(x)` and
`conditional_reverse<little, big>(x) == endian_reverse(x)`. -/
theorem conditional_reverse_cross_order {α : Type} (endian_reverse : α → α) (x : α) :
    conditional_reverse endian_reverse order.big order.little x = endian_reverse x ∧
      conditional_reverse endian_reverse order.little order.big x = endian_reverse x :=
  ⟨rfl, rfl⟩

/-- C4: the run-time `conditional_reverse(x, from_order, to_order)` returns `x`
when `from_order == to_order` and `endian_reverse(x)` otherwise. -/
theorem conditional_reverse_runtime_spec {α : Type} (endian_reverse : α → α) (x : α)
    (from_order to_order : order) :
    (from_order = to_order →
        conditional_reverse_runtime endian_reverse x from_order to_order = x) ∧
      (from_order ≠ to_order →
        conditional_reverse_runtime endian_reverse x from_order to_order = endian_reverse x) := by
  constructor <;> intro h <;> simp [conditional_reverse_runtime, h]

/-- C5: with `native` the host order, `big_to_native(x)` and `native_to_big(x)`
return `x` if `native` is `big` and `endian_reverse(x)` otherwise;
`little_to_native(x)` and `native_to_little(x)` return `x` if `native` is
`little` and `endian_reverse(x)` otherwise. -/
theorem to_native_spec {α : Type} (native : order) (endian_reverse : α → α) (x : α) :
    big_to_native native endian_reverse x
        = (if native = order.big then x else endian_reverse x) ∧
      native_to_big native endian_reverse x
        = (if native = order.big then x else endian_reverse x) ∧
      little_to_native native endian_reverse x
        = (if native = order.little then x else endian_reverse x) ∧
      native_to_little native endian_reverse x
        = (if native = order.little then x else endian_reverse x) := by
  cases native <;>
    simp [big_to_native, native_to_big, little_to_native, native_to_little, conditional_reverse,
      conditional_reverse_impl]

/-- C6: for every 32-bit unsigned `x` the portable `endian_reverse_impl(uint32_t)`
returns the 32-bit value whose byte `i` is byte `3 - i` of `x`, for `i` in 0..3;
`0xAABBCCDD` becomes `0xDDCCBBAA`. -/
theorem endian_reverse_impl_uint32_portable (x : Nat) (hx : x < 2 ^ 32) :
    endian_reverse_impl_uint32 true x < 2 ^ 32 ∧
      (∀ i, i ≤ 3 → byte_of (endian_reverse_impl_uint32 true x) i = byte_of x (3 - i)) ∧
      endian_reverse_impl_uint32 true 0xAABBCCDD = 0xDDCCBBAA := by
  rw [endian_reverse_impl_uint32_eq true x hx]
  exact ⟨byte_swap_lt 4 x, fun i hi => byte_of_byte_swap 4 x i (by omega), by decide⟩

/-- Witness of C6: the operand `0x01020304`. -/
theorem endian_reverse_impl_uint32_portable_witness :
    0x01020304 < 2 ^ 32 ∧
      (endian_reverse_impl_uint32 true 0x01020304 < 2 ^ 32 ∧
        (∀ i, i ≤ 3 →
          byte_of (endian_reverse_impl_uint32 true 0x01020304) i = byte_of 0x01020304 (3 - i)) ∧
        endian_reverse_impl_uint32 true 0xAABBCCDD = 0xDDCCBBAA) :=
  ⟨by decide, endian_reverse_impl_uint32_portable 0x01020304 (by decide)⟩

/-- C7: for every 64-bit unsigned `x` the portable `endian_reverse_impl(uint64_t)`,
with its stages `step32`, `step16` and the final 8-bit stage, returns the 64-bit
value whose byte `i` is byte `7 - i` of `x`, for `i` in 0..7. -/
theorem endian_reverse_impl_uint64_portable (x : Nat) (hx : x < 2 ^ 64) :
    endian_reverse_impl_uint64 true x < 2 ^ 64 ∧
      (∀ i, i ≤ 7 → byte_of (endian_reverse_impl_uint64 true x) i = byte_of x (7 - i)) ∧
      endian_reverse_impl_uint64 true 0x0102030405060708 = 0x0807060504030201 := by
  rw [endian_reverse_impl_uint64_eq true x hx]
  exact ⟨byte_swap_lt 8 x, fun i hi => byte_of_byte_swap 8 x i (by omega), by decide⟩

/-- Witness of C7: the operand `0x1122334455667788`. -/
theorem endian_reverse_impl_uint64_portable_witness :
    0x1122334455667788 < 2 ^ 64 ∧
      (endian_reverse_impl_uint64 true 0x1122334455667788 < 2 ^ 64 ∧
        (∀ i, i ≤ 7 →
          byte_of (endian_reverse_impl_uint64 true 0x1122334455667788) i
            = byte_of 0x1122334455667788 (7 - i)) ∧
        endian_reverse_impl_uint64 true 0x0102030405060708 = 0x0807060504030201) :=
  ⟨by decide, endian_reverse_impl_uint64_portable 0x1122334455667788 (by decide)⟩

/-- C8: for every 16-bit unsigned `x` the portable `endian_reverse_impl(uint16_t)`
is `(x << 8) | (x >> 8)`, computed without truncation, reduced modulo `2 ^ 16`;
its low byte is the high byte of `x` and its high byte is the low byte of `x`. -/
theorem endian_reverse_impl_uint16_portable (x : Nat) (hx : x < 2 ^ 16) :
    endian_reverse_impl_uint16 true x = ((x <<< 8) ||| (x >>> 8)) % 2 ^ 16 ∧
      endian_reverse_impl_uint16 true x < 2 ^ 16 ∧
      byte_of (endian_reverse_impl_uint16 true x) 0 = byte_of x 1 ∧
      byte_of (endian_reverse_impl_uint16 true x) 1 = byte_of x 0 ∧
      endian_reverse_impl_uint16 true x = 256 * (x % 256) + x / 256 := by
  refine ⟨rfl, ?_⟩
  rw [endian_reverse_impl_uint16_eq true x hx]
  refine ⟨byte_swap_lt 2 x, byte_of_byte_swap 2 x 0 (by omega), byte_of_byte_swap 2 x 1 (by omega),
    ?_⟩
  simp only [byte_swap]
  omega

/-- Witness of C8: the operand `0x1234`, reversed to `0x3412`. -/
theorem endian_reverse_impl_uint16_portable_witness :
    0x1234 < 2 ^ 16 ∧ endian_reverse_impl_uint16 true 0x1234 = 256 * (0x1234 % 256) + 0x1234 / 256 ∧
      endian_reverse_impl_uint16 true 0x1234 = 0x3412 :=
  ⟨by decide, (endian_reverse_impl_uint16_portable 0x1234 (by decide)).2.2.2.2, by decide⟩

/-- C9: for every 128-bit unsigned `x` with 64-bit halves `hi = x / 2 ^ 64` and
`lo = x % 2 ^ 64`, `endian_reverse_impl(uint128)` has `endian_reverse_impl(hi)` as
its low 64 bits and `endian_reverse_impl(lo)` as its high 64 bits, and it is the
reversal of the 16 bytes of `x`: byte `i` of the result is byte `15 - i` of `x`. -/
theorem endian_reverse_impl_uint128_halves (no_intrinsics : Bool) (x : Nat) (hx : x < 2 ^ 128) :
    endian_reverse_impl_uint128 no_intrinsics x
        = endian_reverse_impl_uint64 no_intrinsics (x / 2 ^ 64)
          + 2 ^ 64 * endian_reverse_impl_uint64 no_intrinsics (x % 2 ^ 64) ∧
      endian_reverse_impl_uint128 no_intrinsics x % 2 ^ 64
        = endian_reverse_impl_uint64 no_intrinsics (x / 2 ^ 64) ∧
      endian_reverse_impl_uint128 no_intrinsics x / 2 ^ 64
        = endian_reverse_impl_uint64 no_intrinsics (x % 2 ^ 64) ∧
      endian_reverse_impl_uint128 no_intrinsics x < 2 ^ 128 ∧
      (∀ i, i ≤ 15 →
        byte_of (endian_reverse_impl_uint128 no_intrinsics x) i = byte_of x (15 - i)) := by
  have hlo : x % 2 ^ 64 < 2 ^ 64 := Nat.mod_lt _ (by norm_num)
  have hhi : x / 2 ^ 64 < 2 ^ 64 := by omega
  have hA : endian_reverse_impl_uint64 no_intrinsics (x / 2 ^ 64) < 2 ^ 64 := by
    rw [endian_reverse_impl_uint64_eq _ _ hhi]; exact byte_swap_lt 8 _
  have hB : endian_reverse_impl_uint64 no_intrinsics (x % 2 ^ 64) < 2 ^ 64 := by
    rw [endian_reverse_impl_uint64_eq _ _ hlo]; exact byte_swap_lt 8 _
  have e : endian_reverse_impl_uint128 no_intrinsics x
      = endian_reverse_impl_uint64 no_intrinsics (x / 2 ^ 64)
        + 2 ^ 64 * endian_reverse_impl_uint64 no_intrinsics (x % 2 ^ 64) := by
    have h1 : (x >>> 64) % 2 ^ 64 = x / 2 ^ 64 := by
      rw [Nat.shiftRight_eq_div_pow]; omega
    have h2 : (endian_reverse_impl_uint64 no_intrinsics (x % 2 ^ 64) <<< 64) % 2 ^ 128
        = 2 ^ 64 * endian_reverse_impl_uint64 no_intrinsics (x % 2 ^ 64) := by
      rw [Nat.shiftLeft_eq]; omega
    rw [endian_reverse_impl_uint128, h1, h2, Nat.lor_comm, ← Nat.mul_add_lt_is_or hA, Nat.add_comm]
  refine ⟨e, by omega, by omega, ?_, ?_⟩
  · rw [endian_reverse_impl_uint128_eq _ _ hx]; exact byte_swap_lt 16 x
  · intro i hi
    rw [endian_reverse_impl_uint128_eq _ _ hx]
    exact byte_of_byte_swap 16 x i (by omega)

/-- Witness of C9: the operand `0x0102030405060708090A0B0C0D0E0F10` with the
portable implementation. -/
theorem endian_reverse_impl_uint128_halves_witness :
    0x0102030405060708090A0B0C0D0E0F10 < 2 ^ 128 ∧
      endian_reverse_impl_uint128 true 0x0102030405060708090A0B0C0D0E0F10 % 2 ^ 64
        = endian_reverse_impl_uint64 true (0x0102030405060708090A0B0C0D0E0F10 / 2 ^ 64) ∧
      endian_reverse_impl_uint128 true 0x0102030405060708090A0B0C0D0E0F10
        = 0x100F0E0D0C0B0A090807060504030201 :=
  ⟨by decide,
    (endian_reverse_impl_uint128_halves true 0x0102030405060708090A0B0C0D0E0F10 (by decide)).2.1,
    by decide⟩

/-- C10: for every signed integer type `T` of `N` bytes and every `x` of `T`,
`endian_reverse(x)` is the value of `T` whose `N`-byte two's-complement bit
pattern (the value modulo `2 ^ (8 * N)`, from which the cast back recovers the
value) is the byte reversal of the bit pattern of `x`; it is the reinterpreted
reversal and no negation:
`endian_reverse(int16_t(0x0080)) == -32768`, which is not `-0x0080`, and
`endian_reverse(int32_t(-2)) == int32_t(0xFEFFFFFF)`. -/
theorem endian_reverse_signed (no_intrinsics : Bool) (N : integral_by_size) (x : Int)
    (hx : (integral_type.mk N true).in_range x) :
    (integral_type.mk N true).in_range (endian_reverse no_intrinsics ⟨N, true⟩ x) ∧
      static_cast_T ⟨N, true⟩ (static_cast_uintN N x) = x ∧
      (∀ i, i < N.size →
        byte_of (static_cast_uintN N (endian_reverse no_intrinsics ⟨N, true⟩ x)) i
          = byte_of (static_cast_uintN N x) (N.size - 1 - i)) ∧
      endian_reverse no_intrinsics ⟨integral_by_size.uint16_t, true⟩ 0x0080 = -32768 ∧
      endian_reverse no_intrinsics ⟨integral_by_size.uint16_t, true⟩ 0x0080 ≠ -0x0080 ∧
      endian_reverse no_intrinsics ⟨integral_by_size.uint32_t, true⟩ (-2)
        = static_cast_T ⟨integral_by_size.uint32_t, true⟩ 0xFEFFFFFF ∧
      endian_reverse no_intrinsics ⟨integral_by_size.uint32_t, true⟩ (-2) = -16777217 := by
  have hv : byte_swap N.size (static_cast_uintN N x) < 2 ^ N.bits := byte_swap_lt _ _
  refine ⟨?_, static_cast_T_static_cast_uintN ⟨N, true⟩ x hx, ?_, ?_⟩
  · rw [endian_reverse_eq_byte_swap]
    exact static_cast_T_in_range ⟨N, true⟩ _ hv
  · intro i hi
    rw [endian_reverse_eq_byte_swap, static_cast_uintN_static_cast_T ⟨N, true⟩ _ hv]
    exact byte_of_byte_swap _ _ i hi
  · cases no_intrinsics <;> decide

/-- Witness of C10: the value `-2` of `int32_t` with the portable implementation. -/
theorem endian_reverse_signed_witness :
    (integral_type.mk integral_by_size.uint32_t true).in_range (-2) ∧
      (integral_type.mk integral_by_size.uint32_t true).in_range
        (endian_reverse true ⟨integral_by_size.uint32_t, true⟩ (-2)) ∧
      endian_reverse true ⟨integral_by_size.uint32_t, true⟩ (-2) = -16777217 :=
  have h : (integral_type.mk integral_by_size.uint32_t true).in_range (-2) := by
    simp [integral_type.in_range, integral_by_size.bits, integral_by_size.size]
  ⟨h, (endian_reverse_signed true integral_by_size.uint32_t (-2) h).1,
    (endian_reverse_signed true integral_by_size.uint32_t (-2) h).2.2.2.2.2.2⟩

/-! ## Bytes in memory -/

theorem of_bytes_little_bytes_little (n u : Nat) :
    of_bytes_little (bytes_little n u) = u % 2 ^ (8 * n) := by
  induction n generalizing u with
  | zero => simp [bytes_little, of_bytes_little, Nat.mod_one]
  | succ n ih =>
    have h : 2 ^ (8 * (n + 1)) = 256 * 2 ^ (8 * n) := by
      rw [Nat.mul_add, Nat.pow_add]; ring
    rw [bytes_little, of_bytes_little, ih, h, Nat.mod_mul]

theorem of_bytes_to_bytes (o : order) (n u : Nat) :
    of_bytes o (to_bytes o n u) = u % 2 ^ (8 * n) := by
  cases o <;> simp [of_bytes, to_bytes, of_bytes_little_bytes_little]

theorem length_bytes_little (n u : Nat) : (bytes_little n u).length = n := by
  induction n generalizing u with
  | zero => rfl
  | succ n ih => simp [bytes_little, ih]

theorem length_to_bytes (o : order) (n u : Nat) : (to_bytes o n u).length = n := by
  cases o <;> simp [to_bytes, length_bytes_little]

theorem endian_reverse_inplace_eq (native : order) (no_intrinsics : Bool) (T : integral_type)
    (x : Int) :
    endian_reverse_inplace native no_intrinsics T x = endian_reverse no_intrinsics T x := by
  have hu := static_cast_uintN_lt T.uintN_t x
  have hv : byte_swap T.uintN_t.size (static_cast_uintN T.uintN_t x) < 2 ^ T.uintN_t.bits :=
    byte_swap_lt _ _
  simp only [endian_reverse_inplace, object_representation, value_of_representation,
    of_bytes_to_bytes, endian_reverse]
  have e : (8 * T.uintN_t.size) = T.uintN_t.bits := rfl
  rw [e, Nat.mod_eq_of_lt hu, endian_reverse_impl_eq _ _ _ hu, Nat.mod_eq_of_lt hv]

theorem endian_reverse_inplace_array_loop_append {α : Type} (f : α → α) (N : Nat)
    (r l : List α) (hN : (l ++ r).length = N) :
    endian_reverse_inplace_array_loop f N l.length (l ++ r) = l ++ r.map f := by
  induction r generalizing l with
  | nil =>
    rw [endian_reverse_inplace_array_loop, if_neg (by simp at hN; omega)]
    simp
  | cons a r ih =>
    have hlt : l.length < N := by simp at hN; omega
    have h1 : (l ++ a :: r)[l.length]? = some a := by
      rw [List.getElem?_append_right (Nat.le_refl _)]; simp
    have h2 : (l ++ a :: r).set l.length (f a) = (l ++ [f a]) ++ r := by simp
    rw [endian_reverse_inplace_array_loop, if_pos hlt, h1]
    simp only
    rw [h2]
    have h3 := ih (l ++ [f a]) (by simp at hN ⊢; omega)
    simp only [List.length_append, List.length_singleton] at h3
    rw [h3]
    simp

theorem endian_reverse_inplace_array_eq_map {α : Type} (f : α → α) (N : Nat) (x : List α)
    (hN : x.length = N) : endian_reverse_inplace_array f N x = x.map f := by
  have h := endian_reverse_inplace_array_loop_append f N x [] (by simpa using hN)
  simpa [endian_reverse_inplace_array] using h

/-! ## The claims on reversal in place -/

/-- C11: `endian_reverse_inplace(x)` has the effect `x = endian_reverse(x)`. For a
non-bool integer type the bytes of `x` are copied into the unsigned integer of
the same size, that one is reversed and its bytes are copied back, and the final
`x` is `endian_reverse` of the old `x`, on a host of either byte order; for a
class type with its own `endian_reverse` the default implementation leaves `x`
equal to that function applied to the old `x`. -/
theorem endian_reverse_inplace_effect {α : Type} (native : order) (no_intrinsics : Bool)
    (T : integral_type) (x : Int) (class_endian_reverse : α → α) (y : α) :
    endian_reverse_inplace native no_intrinsics T x = endian_reverse no_intrinsics T x ∧
      endian_reverse_inplace_class class_endian_reverse y = class_endian_reverse y :=
  ⟨endian_reverse_inplace_eq native no_intrinsics T x, rfl⟩

/-- C12: for all orders `From`, `To`, `conditional_reverse_inplace<From, To>(x)`
and the run-time `conditional_reverse_inplace(x, From, To)` leave `x` unchanged
when `From == To` and otherwise leave it as `endian_reverse_inplace` makes it,
which for an integer `v` is `endian_reverse` of the old `v`;
`big_to_native_inplace` and `native_to_big_inplace` have no effect when `native`
is `big`, `little_to_native_inplace` and `native_to_little_inplace` have none
when `native` is `little`, and each reverses `x` in place otherwise. -/
theorem conditional_reverse_inplace_spec {α : Type} (endian_reverse_inplace_α : α → α)
    (native From To : order) (x : α) (no_intrinsics : Bool) (T : integral_type) (v : Int) :
    conditional_reverse_inplace endian_reverse_inplace_α From To x
        = (if From = To then x else endian_reverse_inplace_α x) ∧
      conditional_reverse_inplace_runtime endian_reverse_inplace_α x From To
        = (if From = To then x else endian_reverse_inplace_α x) ∧
      conditional_reverse_inplace (endian_reverse_inplace native no_intrinsics T) From To v
        = (if From = To then v else endian_reverse no_intrinsics T v) ∧
      conditional_reverse_inplace_runtime (endian_reverse_inplace native no_intrinsics T) v
          From To
        = (if From = To then v else endian_reverse no_intrinsics T v) ∧
      big_to_native_inplace native endian_reverse_inplace_α x
        = (if native = order.big then x else endian_reverse_inplace_α x) ∧
      native_to_big_inplace native endian_reverse_inplace_α x
        = (if native = order.big then x else endian_reverse_inplace_α x) ∧
      little_to_native_inplace native endian_reverse_inplace_α x
        = (if native = order.little then x else endian_reverse_inplace_α x) ∧
      native_to_little_inplace native endian_reverse_inplace_α x
        = (if native = order.little then x else endian_reverse_inplace_α x) := by
  cases native <;> cases From <;> cases To <;>
    simp [conditional_reverse_inplace, conditional_reverse_inplace_impl,
      conditional_reverse_inplace_runtime, big_to_native_inplace, native_to_big_inplace,
      little_to_native_inplace, native_to_little_inplace, endian_reverse_inplace_eq]

/-- C13: for an array `a` of `N` elements, after `endian_reverse_inplace(a)` the
length is still `N` and the element at every index `i < N` is
`endian_reverse_inplace` of the old element at `i`: positions are kept, the
array is not reversed as one byte string (`{0x0102, 0x0304}` of `uint16_t`
becomes `{0x0201, 0x0403}`); for an array of arrays the same holds at each
level. -/
theorem endian_reverse_inplace_array_spec {α : Type} (endian_reverse_inplace_α : α → α)
    (N : Nat) (a : List α) (hN : a.length = N) :
    (endian_reverse_inplace_array endian_reverse_inplace_α N a).length = N ∧
      (∀ i, i < N → (endian_reverse_inplace_array endian_reverse_inplace_α N a)[i]?
        = (a[i]?).map endian_reverse_inplace_α) ∧
      endian_reverse_inplace_array endian_reverse_inplace_α N a
        = a.map endian_reverse_inplace_α ∧
      (∀ (M : Nat) (b : List (List α)), b.length = N → (∀ row ∈ b, row.length = M) →
        endian_reverse_inplace_array (endian_reverse_inplace_array endian_reverse_inplace_α M) N b
          = b.map (fun row => row.map endian_reverse_inplace_α)) ∧
      endian_reverse_inplace_array
          (endian_reverse_inplace order.little true ⟨integral_by_size.uint16_t, false⟩) 2
          [0x0102, 0x0304]
        = [0x0201, 0x0403] := by
  have e := endian_reverse_inplace_array_eq_map endian_reverse_inplace_α N a hN
  refine ⟨by simp [e, hN], fun i _ => by simp [e], e, ?_, ?_⟩
  · intro M b hb hrows
    rw [endian_reverse_inplace_array_eq_map _ N b hb]
    exact List.map_congr_left fun row hrow =>
      endian_reverse_inplace_array_eq_map endian_reverse_inplace_α M row (hrows row hrow)
  · rw [endian_reverse_inplace_array_eq_map _ 2 [0x0102, 0x0304] rfl]
    decide

/-- Witness of C13: an array of three `int32_t` on a big-endian host. -/
theorem endian_reverse_inplace_array_spec_witness :
    [1, -2, 3].length = 3 ∧
      endian_reverse_inplace_array
          (endian_reverse_inplace order.big true ⟨integral_by_size.uint32_t, true⟩) 3 [1, -2, 3]
        = [1, -2, 3].map
          (endian_reverse_inplace order.big true ⟨integral_by_size.uint32_t, true⟩) ∧
      [1, -2, 3].map (endian_reverse_inplace order.big true ⟨integral_by_size.uint32_t, true⟩)
        = [16777216, -16777217, 50331648] :=
  ⟨rfl,
    (endian_reverse_inplace_array_spec
      (endian_reverse_inplace order.big true ⟨integral_by_size.uint32_t, true⟩) 3 [1, -2, 3]
      rfl).2.2.1,
    by decide⟩

/-! ## The claims on the reversibility traits -/

/-- C14: `is_endian_reversible<T>` holds exactly when `T` is an integral type
other than `bool` or a scoped enumeration (an enumeration that does not convert
implicitly to `int`); it is false for `bool`, for unscoped enumerations, for
`float` and for `double`, and for these the static assertions of
`endian_reverse` and of `conditional_reverse` fail. -/
theorem is_endian_reversible_iff (T : cpp_type) (U : integral_type) :
    (is_endian_reversible T = true ↔
        (is_integral T = true ∧ T ≠ cpp_type.bool) ∨
          (is_enum T = true ∧ is_convertible_int T = false)) ∧
      (is_endian_reversible T = true ↔
        (∃ I, T = cpp_type.integral I) ∨ (∃ E, T = cpp_type.scoped_enum E)) ∧
      is_endian_reversible cpp_type.bool = false ∧
      is_endian_reversible (cpp_type.unscoped_enum U) = false ∧
      is_endian_reversible cpp_type.float = false ∧
      is_endian_reversible cpp_type.double = false ∧
      endian_reverse_static_assert cpp_type.bool = false ∧
      endian_reverse_static_assert (cpp_type.unscoped_enum U) = false ∧
      endian_reverse_static_assert cpp_type.float = false ∧
      endian_reverse_static_assert cpp_type.double = false ∧
      conditional_reverse_static_assert cpp_type.bool = false ∧
      conditional_reverse_static_assert (cpp_type.unscoped_enum U) = false ∧
      conditional_reverse_static_assert cpp_type.float = false ∧
      conditional_reverse_static_assert cpp_type.double = false := by
  refine ⟨?_, ?_, by decide, rfl, by decide, by decide, by decide, rfl, by decide, by decide,
    by decide, rfl, by decide, by decide⟩
  · cases T <;>
      simp [is_endian_reversible, is_scoped_enum, negation, is_integral, is_enum, is_same_bool,
        is_convertible_int]
  · cases T <;>
      simp [is_endian_reversible, is_scoped_enum, negation, is_integral, is_enum, is_same_bool,
        is_convertible_int]

/-- C15: `is_endian_reversible_inplace<T>` holds exactly when `T` is an integral
type (`bool` is one), an enumeration (scoped or unscoped), `float` or `double`;
every type for which `is_endian_reversible` holds is reversible in place too. -/
theorem is_endian_reversible_inplace_iff (T : cpp_type) :
    (is_endian_reversible_inplace T = true ↔
        is_integral T = true ∨ is_enum T = true ∨ T = cpp_type.float ∨ T = cpp_type.double) ∧
      (is_endian_reversible_inplace T = true ↔
        T = cpp_type.bool ∨ (∃ I, T = cpp_type.integral I) ∨
          (∃ E, T = cpp_type.unscoped_enum E) ∨ (∃ E, T = cpp_type.scoped_enum E) ∨
          T = cpp_type.float ∨ T = cpp_type.double) ∧
      (is_endian_reversible T = true → is_endian_reversible_inplace T = true) ∧
      endian_reverse_inplace_static_assert T = is_endian_reversible_inplace T := by
  refine ⟨?_, ?_, ?_, rfl⟩ <;>
    cases T <;>
      simp [is_endian_reversible_inplace, is_endian_reversible, is_scoped_enum, negation,
        is_integral, is_enum, is_same_bool, is_same_float, is_same_double, is_convertible_int]

/-! ## The bytes of a field -/

theorem of_bytes_little_lt (bs : List Nat) (h : ∀ x ∈ bs, x < 256) :
    of_bytes_little bs < 2 ^ (8 * bs.length) := by
  induction bs with
  | nil => simp [of_bytes_little]
  | cons b bs ih =>
    have h1 := ih (fun x hx => h x (List.mem_cons_of_mem _ hx))
    have h2 := h b (List.mem_cons_self _ _)
    have h3 : 2 ^ (8 * (b :: bs).length) = 256 * 2 ^ (8 * bs.length) := by
      rw [List.length_cons, Nat.mul_add, Nat.pow_add]; ring
    rw [of_bytes_little, h3]
    omega

theorem of_bytes_lt (o : order) (bs : List Nat) (h : ∀ x ∈ bs, x < 256) :
    of_bytes o bs < 2 ^ (8 * bs.length) := by
  cases o
  · have h1 := of_bytes_little_lt bs.reverse (fun x hx => h x (List.mem_reverse.mp hx))
    simpa [of_bytes] using h1
  · exact of_bytes_little_lt bs h

theorem of_bytes_take_lt (o : order) (N : Nat) (p : List Nat) (h : ∀ x ∈ p, x < 256) :
    of_bytes o (p.take N) < 2 ^ (8 * N) :=
  lt_of_lt_of_le (of_bytes_lt o _ (fun x hx => h x (List.mem_of_mem_take hx)))
    (Nat.pow_le_pow_right (by norm_num) (by have := List.length_take_le N p; omega))

theorem byte_of_succ (u k : Nat) : byte_of u (k + 1) = byte_of (u / 256) k := by
  unfold byte_of
  rw [Nat.mul_add, Nat.pow_add, Nat.mul_comm (2 ^ (8 * k)), ← Nat.div_div_eq_div_mul]

theorem getElem?_bytes_little (n u k : Nat) (hk : k < n) :
    (bytes_little n u)[k]? = some (byte_of u k) := by
  induction n generalizing u k with
  | zero => omega
  | succ n ih =>
    cases k with
    | zero => simp [bytes_little, byte_of]
    | succ k =>
      rw [bytes_little, List.getElem?_cons_succ, ih (u / 256) k (by omega), byte_of_succ]

theorem getElem?_to_bytes_little (n u k : Nat) (hk : k < n) :
    (to_bytes order.little n u)[k]? = some (byte_of u k) :=
  getElem?_bytes_little n u k hk

theorem getElem?_to_bytes_big (n u k : Nat) (hk : k < n) :
    (to_bytes order.big n u)[k]? = some (byte_of u (n - 1 - k)) := by
  have h := List.getElem?_reverse (l := bytes_little n u) (i := k)
    (by rw [length_bytes_little]; exact hk)
  rw [length_bytes_little] at h
  simp only [to_bytes]
  rw [h, getElem?_bytes_little n u (n - 1 - k) (by omega)]

theorem byte_of_eq_shift_and (u k : Nat) : byte_of u k = (u >>> (8 * k)) &&& 0xFF := by
  rw [show (0xFF : Nat) = 2 ^ 8 - 1 from rfl, Nat.and_pow_two_sub_one_eq_mod,
    Nat.shiftRight_eq_div_pow]
  rfl

/-! ## Loading and storing a field -/

theorem lor_sign_fill (w i B : Nat) (hw : w < 2 ^ i) (hi : i ≤ B) :
    w ||| (2 ^ B - 2 ^ i) = w + (2 ^ B - 2 ^ i) := by
  have h : 2 ^ B - 2 ^ i = 2 ^ i * (2 ^ (B - i) - 1) := by
    rw [Nat.mul_sub, ← Nat.pow_add, Nat.add_sub_cancel' hi, Nat.mul_one]
  rw [h, Nat.lor_comm, ← Nat.mul_add_lt_is_or hw, Nat.add_comm]

theorem endian_load_value (T : integral_type) (N w : Nat) (hN1 : 1 ≤ N)
    (hN2 : N ≤ T.uintN_t.size) (hw : w < 2 ^ (8 * N)) :
    static_cast_T T
        (if T.is_signed && w.testBit (8 * N - 1) then w ||| (2 ^ T.uintN_t.bits - 2 ^ (8 * N))
          else w)
      = if T.is_signed = true ∧ 2 ^ (8 * N - 1) ≤ w then (w : Int) - 2 ^ (8 * N)
        else (w : Int) := by
  have hB : 8 * N ≤ T.uintN_t.bits := by
    unfold integral_by_size.bits; omega
  rw [lor_sign_fill w (8 * N) _ hw hB, Nat.testBit_to_div_mod]
  obtain ⟨U, sg⟩ := T
  unfold static_cast_T
  cases U <;> cases sg <;>
    simp only [integral_by_size.bits, integral_by_size.size, Bool.true_and, Bool.false_and,
      decide_eq_true_eq, if_true, Bool.false_eq_true, if_false, true_and, false_and]
      at hN2 hw ⊢ <;>
    interval_cases N <;> split_ifs <;> omega

theorem endian_load_eq (T : integral_type) (N : Nat) (o : order) (p : List Nat) (hN1 : 1 ≤ N)
    (hN2 : N ≤ T.uintN_t.size) (hp : ∀ x ∈ p, x < 256) :
    endian_load T N o p
      = if T.is_signed = true ∧ 2 ^ (8 * N - 1) ≤ of_bytes o (p.take N) then
          (of_bytes o (p.take N) : Int) - 2 ^ (8 * N)
        else (of_bytes o (p.take N) : Int) :=
  endian_load_value T N _ hN1 hN2 (of_bytes_take_lt o N p hp)

theorem endian_load_endian_store (T S : integral_type) (N : Nat) (o : order) (p : List Nat)
    (v : Int) (hN1 : 1 ≤ N) (hN2 : N ≤ T.uintN_t.size) :
    endian_load T N o (endian_store S N o p v)
      = if T.is_signed = true ∧ 2 ^ (8 * N - 1) ≤ static_cast_uintN S.uintN_t v % 2 ^ (8 * N) then
          ((static_cast_uintN S.uintN_t v % 2 ^ (8 * N) : Nat) : Int) - 2 ^ (8 * N)
        else ((static_cast_uintN S.uintN_t v % 2 ^ (8 * N) : Nat) : Int) := by
  have hw : static_cast_uintN S.uintN_t v % 2 ^ (8 * N) < 2 ^ (8 * N) :=
    Nat.mod_lt _ (by positivity)
  have h := endian_load_value T N _ hN1 hN2 hw
  simp only [endian_load, endian_store, List.take_left' (length_to_bytes o N _),
    of_bytes_to_bytes, Nat.mod_mod]
  exact h

theorem load_function_eq (o : order) (s : Bool) (w : field_bits) (p : List Nat) :
    load_function o s w p = endian_load ⟨w.storage, s⟩ w.bytes o p := by
  cases o <;> cases s <;> cases w <;> rfl

theorem store_function_eq (o : order) (s : Bool) (w : field_bits) (p : List Nat) (v : Int) :
    store_function o s w p v = endian_store ⟨w.storage, s⟩ w.bytes o p v := by
  cases o <;> cases s <;> cases w <;> rfl

theorem field_bits_bytes_pos (w : field_bits) : 1 ≤ w.bytes := by
  cases w <;> decide

theorem field_bits_bytes_le (w : field_bits) : w.bytes ≤ w.storage.size := by
  cases w <;> decide

/-! ## The claims on the load and store functions -/

/-- C16: for every order, every width `N` in 16, 24, ..., 64, both signednesses
and every value `v` representable in `N` bits, loading with
`load_<order>_<s|u>N` the bytes written by `store_<order>_<s|u>N(p, v)` returns
`v`. -/
theorem load_store_round_trip (o : order) (s : Bool) (w : field_bits) (p : List Nat) (v : Int)
    (hv : representable s w.bits v) :
    load_function o s w (store_function o s w p v) = v := by
  rw [load_function_eq, store_function_eq,
    endian_load_endian_store _ _ _ _ _ _ (field_bits_bytes_pos w) (field_bits_bytes_le w)]
  unfold representable at hv
  unfold static_cast_uintN
  cases w <;> cases s <;>
    simp only [field_bits.bits, field_bits.bytes, field_bits.storage, integral_by_size.bits,
      integral_by_size.size, if_true, Bool.false_eq_true, if_false, true_and, false_and]
      at hv ⊢ <;>
    omega

/-- Witness of C16: the value `-5517841` in a signed 24-bit big-endian field. -/
theorem load_store_round_trip_witness :
    representable true field_bits.b24.bits (-5517841) ∧
      load_function order.big true field_bits.b24
        (store_function order.big true field_bits.b24 [0, 0, 0, 0] (-5517841)) = -5517841 :=
  have h : representable true field_bits.b24.bits (-5517841) := by
    simp [representable, field_bits.bits]
  ⟨h, load_store_round_trip order.big true field_bits.b24 [0, 0, 0, 0] (-5517841) h⟩

/-- C17: for every width `N` (of `n = N / 8` bytes) and every unsigned
`v < 2 ^ N`, `store_big_uN` writes `n` bytes, byte `k` being
`(v >> 8 * (n - 1 - k)) & 0xFF`, and `store_little_uN` writes `n` bytes, byte `k`
being `(v >> 8 * k) & 0xFF`; the bytes from `n` on are left as they were.
`store_big_u64(0x0102030405060708)` writes `01 02 03 04 05 06 07 08`,
`store_little_u64` of it writes `08 07 06 05 04 03 02 01`, and
`store_big_u24(0xABCDEF)` writes `AB CD EF`. -/
theorem store_unsigned_bytes (w : field_bits) (p : List Nat) (v : Nat) (hv : v < 2 ^ w.bits) :
    (∀ k, k < w.bytes → (store_function order.big false w p v)[k]?
        = some ((v >>> (8 * (w.bytes - 1 - k))) &&& 0xFF)) ∧
      (∀ k, k < w.bytes → (store_function order.little false w p v)[k]?
        = some ((v >>> (8 * k)) &&& 0xFF)) ∧
      (store_function order.big false w p v).drop w.bytes = p.drop w.bytes ∧
      (store_function order.little false w p v).drop w.bytes = p.drop w.bytes ∧
      store_big_u64 p 0x0102030405060708 = [1, 2, 3, 4, 5, 6, 7, 8] ++ p.drop 8 ∧
      store_little_u64 p 0x0102030405060708 = [8, 7, 6, 5, 4, 3, 2, 1] ++ p.drop 8 ∧
      store_big_u24 p 0xABCDEF = [0xAB, 0xCD, 0xEF] ++ p.drop 3 := by
  have e : static_cast_uintN w.storage (v : Int) % 2 ^ (8 * w.bytes) = v := by
    unfold static_cast_uintN
    cases w <;>
      simp only [field_bits.bits, field_bits.bytes, field_bits.storage, integral_by_size.bits,
        integral_by_size.size] at hv ⊢ <;>
      omega
  refine ⟨?_, ?_, ?_, ?_, ?_, ?_, ?_⟩
  · intro k hk
    rw [store_function_eq, endian_store, e,
      List.getElem?_append_left (by rw [length_to_bytes]; exact hk),
      getElem?_to_bytes_big _ _ _ hk, byte_of_eq_shift_and]
  · intro k hk
    rw [store_function_eq, endian_store, e,
      List.getElem?_append_left (by rw [length_to_bytes]; exact hk),
      getElem?_to_bytes_little _ _ _ hk, byte_of_eq_shift_and]
  · rw [store_function_eq, endian_store, List.drop_left' (length_to_bytes _ _ _)]
  · rw [store_function_eq, endian_store, List.drop_left' (length_to_bytes _ _ _)]
  · exact congrArg (· ++ p.drop 8)
      (by decide : to_bytes order.big 8
        (static_cast_uintN integral_by_size.uint64_t 0x0102030405060708 % 2 ^ (8 * 8))
          = [1, 2, 3, 4, 5, 6, 7, 8])
  · exact congrArg (· ++ p.drop 8)
      (by decide : to_bytes order.little 8
        (static_cast_uintN integral_by_size.uint64_t 0x0102030405060708 % 2 ^ (8 * 8))
          = [8, 7, 6, 5, 4, 3, 2, 1])
  · exact congrArg (· ++ p.drop 3)
      (by decide : to_bytes order.big 3
        (static_cast_uintN integral_by_size.uint32_t 0xABCDEF % 2 ^ (8 * 3))
          = [0xAB, 0xCD, 0xEF])

/-- Witness of C17: the value `0xABCDEF` in a 24-bit field over a memory of four
bytes. -/
theorem store_unsigned_bytes_witness :
    0xABCDEF < 2 ^ field_bits.b24.bits ∧
      (store_function order.big false field_bits.b24 [1, 2, 3, 4] (0xABCDEF : Nat)).drop
          field_bits.b24.bytes
        = [4] ∧
      store_function order.big false field_bits.b24 [1, 2, 3, 4] (0xABCDEF : Nat)
        = [0xAB, 0xCD, 0xEF, 4] :=
  ⟨by decide,
    (store_unsigned_bytes field_bits.b24 [1, 2, 3, 4] 0xABCDEF (by decide)).2.2.1,
    by decide⟩

/-- C18: for every signed load `load_<order>_sN` and every sequence `b` of bytes
with unsigned value `u = load_<order>_uN(b)`, which lies in `[0, 2 ^ N)`: the
signed load returns `u` when bit `N - 1` of `u` is clear and `u - 2 ^ N` when it
is set; storing `-1` with `store_<order>_s24` and loading it back with
`load_<order>_s24` yields `-1`, while the unsigned load of these bytes yields
`16777215`. -/
theorem signed_load_spec (o : order) (w : field_bits) (b : List Nat) (hb : ∀ x ∈ b, x < 256)
    (p : List Nat) :
    0 ≤ load_function o false w b ∧
      load_function o false w b < 2 ^ w.bits ∧
      ((load_function o false w b).toNat.testBit (w.bits - 1) = false →
        load_function o true w b = load_function o false w b) ∧
      ((load_function o false w b).toNat.testBit (w.bits - 1) = true →
        load_function o true w b = load_function o false w b - 2 ^ w.bits) ∧
      load_little_s24 (store_little_s24 p (-1)) = -1 ∧
      load_big_s24 (store_big_s24 p (-1)) = -1 ∧
      load_little_u24 (store_little_s24 p (-1)) = 16777215 ∧
      load_big_u24 (store_big_s24 p (-1)) = 16777215 := by
  have hu := of_bytes_take_lt o w.bytes b hb
  have e1 := endian_load_eq ⟨w.storage, false⟩ w.bytes o b (field_bits_bytes_pos w)
    (field_bits_bytes_le w) hb
  have e2 := endian_load_eq ⟨w.storage, true⟩ w.bytes o b (field_bits_bytes_pos w)
    (field_bits_bytes_le w) hb
  simp only [Bool.false_eq_true, false_and, if_false, true_and] at e1 e2
  rw [load_function_eq, load_function_eq, e1, e2]
  simp only [Int.toNat_ofNat, Nat.testBit_to_div_mod, decide_eq_false_iff_not, decide_eq_true_eq]
  generalize of_bytes o (List.take w.bytes b) = u at hu
  refine ⟨by omega, ?_, ?_, ?_, ?_, ?_, ?_, ?_⟩
  · cases w <;> simp only [field_bits.bits, field_bits.bytes] at hu ⊢ <;> omega
  · cases w <;> simp only [field_bits.bits, field_bits.bytes] at hu ⊢ <;> split_ifs <;> omega
  · cases w <;> simp only [field_bits.bits, field_bits.bytes] at hu ⊢ <;> split_ifs <;> omega
  · exact endian_load_endian_store int32_t int32_t 3 order.little p (-1) (by decide) (by decide)
  · exact endian_load_endian_store int32_t int32_t 3 order.big p (-1) (by decide) (by decide)
  · exact endian_load_endian_store uint32_t int32_t 3 order.little p (-1) (by decide) (by decide)
  · exact endian_load_endian_store uint32_t int32_t 3 order.big p (-1) (by decide) (by decide)

/-- Witness of C18: the bytes `AB CD EF` of a 24-bit big-endian field. -/
theorem signed_load_spec_witness :
    (∀ x ∈ [0xAB, 0xCD, 0xEF], x < 256) ∧
      ((load_function order.big false field_bits.b24 [0xAB, 0xCD, 0xEF]).toNat.testBit
          (field_bits.b24.bits - 1) = true →
        load_function order.big true field_bits.b24 [0xAB, 0xCD, 0xEF]
          = load_function order.big false field_bits.b24 [0xAB, 0xCD, 0xEF]
            - 2 ^ field_bits.b24.bits) ∧
      load_function order.big false field_bits.b24 [0xAB, 0xCD, 0xEF] = 0xABCDEF :=
  ⟨by decide,
    (signed_load_spec order.big field_bits.b24 [0xAB, 0xCD, 0xEF] (by decide) []).2.2.2.1,
    by decide⟩

/-- C19, as stated, fails: the three bytes `AB CD EF` loaded with `load_big_s24`
do not yield `-5517585`. -/
theorem load_big_s24_AB_CD_EF_ne : load_big_s24 [0xAB, 0xCD, 0xEF] ≠ -5517585 := by
  decide

/-- C19, amended: loading the three bytes `AB CD EF` (in that memory order) as a
24-bit signed big-endian field with `load_big_s24` yields
`0xABCDEF - 2 ^ 24 = -5517841`. -/
theorem load_big_s24_AB_CD_EF :
    load_big_s24 [0xAB, 0xCD, 0xEF] = -5517841 ∧ (0xABCDEF : Int) - 2 ^ 24 = -5517841 := by
  decide

/-- C20: a store never rejects a value. For every order, every width `N` and
every value `v` of the unsigned storage type, also `v >= 2 ^ N`,
`store_<order>_uN(p, v)` writes the bytes that storing `v mod 2 ^ N` writes, and
the following `load_<order>_uN` returns `v mod 2 ^ N`; `store_big_u24` of
`0x12ABCDEF` writes `AB CD EF`. -/
theorem store_truncates (o : order) (w : field_bits) (p : List Nat) (v : Int)
    (hv : 0 ≤ v ∧ v < 2 ^ w.storage.bits) :
    store_function o false w p v = store_function o false w p (v % 2 ^ w.bits) ∧
      load_function o false w (store_function o false w p v) = v % 2 ^ w.bits ∧
      store_big_u24 p 0x12ABCDEF = [0xAB, 0xCD, 0xEF] ++ p.drop 3 ∧
      load_big_u24 (store_big_u24 p 0x12ABCDEF) = 0xABCDEF := by
  refine ⟨?_, ?_, ?_, ?_⟩
  · have e : static_cast_uintN w.storage v % 2 ^ (8 * w.bytes)
        = static_cast_uintN w.storage (v % 2 ^ w.bits) % 2 ^ (8 * w.bytes) := by
      unfold static_cast_uintN
      cases w <;>
        simp only [field_bits.bits, field_bits.bytes, field_bits.storage, integral_by_size.bits,
          integral_by_size.size] at hv ⊢ <;>
        omega
    rw [store_function_eq, store_function_eq, endian_store, endian_store, e]
  · rw [load_function_eq, store_function_eq,
      endian_load_endian_store _ _ _ _ _ _ (field_bits_bytes_pos w) (field_bits_bytes_le w)]
    unfold static_cast_uintN
    cases w <;>
      simp only [field_bits.bits, field_bits.bytes, field_bits.storage, integral_by_size.bits,
        integral_by_size.size, Bool.false_eq_true, if_false, false_and] at hv ⊢ <;>
      omega
  · exact congrArg (· ++ p.drop 3)
      (by decide : to_bytes order.big 3
        (static_cast_uintN integral_by_size.uint32_t 0x12ABCDEF % 2 ^ (8 * 3))
          = [0xAB, 0xCD, 0xEF])
  · exact endian_load_endian_store uint32_t uint32_t 3 order.big p 0x12ABCDEF (by decide)
      (by decide)

/-- Witness of C20: the value `0x12ABCDEF` of `uint32_t` in a 24-bit
little-endian field. -/
theorem store_truncates_witness :
    ((0 : Int) ≤ 0x12ABCDEF ∧ (0x12ABCDEF : Int) < 2 ^ field_bits.b24.storage.bits) ∧
      load_function order.little false field_bits.b24
          (store_function order.little false field_bits.b24 [9, 9, 9, 9] 0x12ABCDEF)
        = 0x12ABCDEF % 2 ^ field_bits.b24.bits ∧
      store_function order.little false field_bits.b24 [9, 9, 9, 9] 0x12ABCDEF
        = [0xEF, 0xCD, 0xAB, 9] :=
  have h : (0 : Int) ≤ 0x12ABCDEF ∧ (0x12ABCDEF : Int) < 2 ^ field_bits.b24.storage.bits := by
    decide
  ⟨h, (store_truncates order.little field_bits.b24 [9, 9, 9, 9] 0x12ABCDEF h).2.1, by decide⟩

/-! ## Composition of conversions -/

theorem endian_reverse_involutive (no_intrinsics : Bool) (T : integral_type) (x : Int)
    (hx : T.in_range x) :
    endian_reverse no_intrinsics T (endian_reverse no_intrinsics T x) = x := by
  have hu := static_cast_uintN_lt T.uintN_t x
  have hv : byte_swap T.uintN_t.size (static_cast_uintN T.uintN_t x) < 2 ^ T.uintN_t.bits :=
    byte_swap_lt _ _
  rw [endian_reverse_eq_byte_swap, endian_reverse_eq_byte_swap,
    static_cast_uintN_static_cast_T T _ hv, byte_swap_byte_swap _ _ hu,
    static_cast_T_static_cast_uintN T x hx]

theorem endian_reverse_in_range (no_intrinsics : Bool) (T : integral_type) (x : Int) :
    T.in_range (endian_reverse no_intrinsics T x) := by
  rw [endian_reverse_eq_byte_swap]
  exact static_cast_T_in_range T _ (byte_swap_lt _ _)

/-- C26, as stated, fails: `conditional_reverse<big, little>` of the `uint16_t`
value `0x0102`, two orders of different values, does not return the operand, and
`conditional_reverse<big, big>` of it does not return `endian_reverse` of it. -/
theorem conditional_reverse_synopsis_ne :
    conditional_reverse (endian_reverse true ⟨integral_by_size.uint16_t, false⟩)
        order.big order.little 0x0102 ≠ 0x0102 ∧
      conditional_reverse (endian_reverse true ⟨integral_by_size.uint16_t, false⟩)
        order.big order.big 0x0102
        ≠ endian_reverse true ⟨integral_by_size.uint16_t, false⟩ 0x0102 := by
  decide

/-- C26, amended: the compile-time `conditional_reverse<From, To>(from)` returns
`from` when `From` and `To` have the same value, and `endian_reverse(from)`
otherwise. -/
theorem conditional_reverse_synopsis {α : Type} (endian_reverse : α → α) (From To : order)
    (x : α) :
    conditional_reverse endian_reverse From To x
      = (if From = To then x else endian_reverse x) := by
  cases From <;> cases To <;> rfl

/-- C27: the 16-bit portable swap stays inside `int`: for every `uint16_t` value
`x` the intermediate values `x << 8`, `x >> 8` and `(x << 8) | (x >> 8)` lie in
`[0, 2 ^ 24)`, below `2 ^ 31`, and the result is the last one reduced modulo
`2 ^ 16`. -/
theorem endian_reverse_impl_uint16_no_overflow (x : Nat) (hx : x < 2 ^ 16) :
    x <<< 8 < 2 ^ 24 ∧ x >>> 8 < 2 ^ 24 ∧ (x <<< 8) ||| (x >>> 8) < 2 ^ 24 ∧
      (2 : Nat) ^ 24 ≤ 2 ^ 31 ∧
      endian_reverse_impl_uint16 true x = ((x <<< 8) ||| (x >>> 8)) % 2 ^ 16 := by
  have h1 : x <<< 8 < 2 ^ 24 := by rw [Nat.shiftLeft_eq]; omega
  have h2 : x >>> 8 < 2 ^ 24 := by rw [Nat.shiftRight_eq_div_pow]; omega
  exact ⟨h1, h2, Nat.or_lt_two_pow h1 h2, by norm_num, rfl⟩

/-- Witness of C27: the operand `0xFFFF`. -/
theorem endian_reverse_impl_uint16_no_overflow_witness :
    0xFFFF < 2 ^ 16 ∧ (0xFFFF <<< 8) ||| (0xFFFF >>> 8) < 2 ^ 24 ∧
      (0xFFFF <<< 8) ||| (0xFFFF >>> 8) = 0xFFFFFF :=
  ⟨by decide, (endian_reverse_impl_uint16_no_overflow 0xFFFF (by decide)).2.2.1, by decide⟩

/-- C28: conversions to and from a wire order are mutually inverse on a host of
either order: for every value `x` of an integer type `T`,
`native_to_big(big_to_native(x)) == x`, `big_to_native(native_to_big(x)) == x`,
`native_to_little(little_to_native(x)) == x` and
`little_to_native(native_to_little(x)) == x`, and
`conditional_reverse<B, A>(conditional_reverse<A, B>(x)) == x` for all orders
`A`, `B`. -/
theorem conversions_inverse (native A B : order) (no_intrinsics : Bool) (T : integral_type)
    (x : Int) (hx : T.in_range x) :
    native_to_big native (endian_reverse no_intrinsics T)
        (big_to_native native (endian_reverse no_intrinsics T) x) = x ∧
      big_to_native native (endian_reverse no_intrinsics T)
        (native_to_big native (endian_reverse no_intrinsics T) x) = x ∧
      native_to_little native (endian_reverse no_intrinsics T)
        (little_to_native native (endian_reverse no_intrinsics T) x) = x ∧
      little_to_native native (endian_reverse no_intrinsics T)
        (native_to_little native (endian_reverse no_intrinsics T) x) = x ∧
      conditional_reverse (endian_reverse no_intrinsics T) B A
        (conditional_reverse (endian_reverse no_intrinsics T) A B x) = x := by
  have h := endian_reverse_involutive no_intrinsics T x hx
  cases native <;> cases A <;> cases B <;>
    simp [native_to_big, big_to_native, native_to_little, little_to_native, conditional_reverse,
      conditional_reverse_impl, h]

/-- Witness of C28: the value `-2` of `int32_t` on a little-endian host. -/
theorem conversions_inverse_witness :
    (integral_type.mk integral_by_size.uint32_t true).in_range (-2) ∧
      native_to_big order.little (endian_reverse true ⟨integral_by_size.uint32_t, true⟩)
        (big_to_native order.little (endian_reverse true ⟨integral_by_size.uint32_t, true⟩)
          (-2)) = -2 ∧
      big_to_native order.little (endian_reverse true ⟨integral_by_size.uint32_t, true⟩) (-2)
        = -16777217 :=
  have h : (integral_type.mk integral_by_size.uint32_t true).in_range (-2) := by
    simp [integral_type.in_range, integral_by_size.bits, integral_by_size.size]
  ⟨h, (conversions_inverse order.little order.big order.little true
    ⟨integral_by_size.uint32_t, true⟩ (-2) h).1, by decide⟩

/-- C29: the compile-time and the run-time dispatch agree: for all orders `F`,
`T` and every `x`, `conditional_reverse<F, T>(x) == conditional_reverse(x, F, T)`,
and `conditional_reverse_inplace<F, T>(x)` leaves `x` as
`conditional_reverse_inplace(x, F, T)` does. -/
theorem compile_time_eq_runtime {α : Type} (endian_reverse endian_reverse_inplace_α : α → α)
    (F T : order) (x : α) :
    conditional_reverse endian_reverse F T x = conditional_reverse_runtime endian_reverse x F T ∧
      conditional_reverse_inplace endian_reverse_inplace_α F T x
        = conditional_reverse_inplace_runtime endian_reverse_inplace_α x F T := by
  cases F <;> cases T <;>
    simp [conditional_reverse, conditional_reverse_impl, conditional_reverse_runtime,
      conditional_reverse_inplace, conditional_reverse_inplace_impl,
      conditional_reverse_inplace_runtime]

/-- C30: conversions compose: for all orders `A`, `B`, `C` (each `big` or
`little`, `native` being one of them) and every value `x` of an integer type,
`conditional_reverse<B, C>(conditional_reverse<A, B>(x)) == conditional_reverse<A, C>(x)`,
and the same holds for the run-time form. -/
theorem conversions_compose (A B C : order) (no_intrinsics : Bool) (T : integral_type)
    (x : Int) (hx : T.in_range x) :
    conditional_reverse (endian_reverse no_intrinsics T) B C
        (conditional_reverse (endian_reverse no_intrinsics T) A B x)
        = conditional_reverse (endian_reverse no_intrinsics T) A C x ∧
      conditional_reverse_runtime (endian_reverse no_intrinsics T)
        (conditional_reverse_runtime (endian_reverse no_intrinsics T) x A B) B C
        = conditional_reverse_runtime (endian_reverse no_intrinsics T) x A C := by
  have h := endian_reverse_involutive no_intrinsics T x hx
  cases A <;> cases B <;> cases C <;>
    simp [conditional_reverse, conditional_reverse_impl, conditional_reverse_runtime, h]

/-- Witness of C30: the value `0x0102` of `uint16_t`, from `big` over `little`
back to `big`. -/
theorem conversions_compose_witness :
    (integral_type.mk integral_by_size.uint16_t false).in_range 0x0102 ∧
      conditional_reverse (endian_reverse true ⟨integral_by_size.uint16_t, false⟩)
          order.little order.big
          (conditional_reverse (endian_reverse true ⟨integral_by_size.uint16_t, false⟩)
            order.big order.little 0x0102)
        = conditional_reverse (endian_reverse true ⟨integral_by_size.uint16_t, false⟩)
          order.big order.big 0x0102 :=
  have h : (integral_type.mk integral_by_size.uint16_t false).in_range 0x0102 := by
    simp [integral_type.in_range, integral_by_size.bits, integral_by_size.size]
  ⟨h, (conversions_compose order.big order.little order.big true
    ⟨integral_by_size.uint16_t, false⟩ 0x0102 h).1⟩

/-! ## Full-width fields and the byte swap -/

theorem to_bytes_little_byte_swap (n v : Nat) :
    to_bytes order.little n (byte_swap n v) = to_bytes order.big n v := by
  apply List.ext_getElem?
  intro k
  by_cases hk : k < n
  · rw [getElem?_to_bytes_little _ _ _ hk, getElem?_to_bytes_big _ _ _ hk,
      byte_of_byte_swap _ _ _ hk]
  · rw [List.getElem?_eq_none (by rw [length_to_bytes]; omega),
      List.getElem?_eq_none (by rw [length_to_bytes]; omega)]

theorem bytes_little_of_bytes_little (bs : List Nat) (h : ∀ x ∈ bs, x < 256) :
    bytes_little bs.length (of_bytes_little bs) = bs := by
  induction bs with
  | nil => rfl
  | cons b bs ih =>
    have h1 := ih (fun x hx => h x (List.mem_cons_of_mem _ hx))
    have h2 := h b (List.mem_cons_self _ _)
    have e1 : (b + 256 * of_bytes_little bs) % 256 = b := by omega
    have e2 : (b + 256 * of_bytes_little bs) / 256 = of_bytes_little bs := by omega
    rw [List.length_cons, of_bytes_little, bytes_little, e1, e2, h1]

theorem of_bytes_big_eq_byte_swap (bs : List Nat) (h : ∀ x ∈ bs, x < 256) :
    of_bytes order.big bs = byte_swap bs.length (of_bytes order.little bs) := by
  have hu : of_bytes_little bs < 2 ^ (8 * bs.length) := of_bytes_little_lt bs h
  have e1 : to_bytes order.little bs.length (of_bytes_little bs) = bs :=
    bytes_little_of_bytes_little bs h
  have e2 := to_bytes_little_byte_swap bs.length (byte_swap bs.length (of_bytes_little bs))
  rw [byte_swap_byte_swap _ _ hu, e1] at e2
  have e3 := of_bytes_to_bytes order.big bs.length (byte_swap bs.length (of_bytes_little bs))
  rw [← e2, Nat.mod_eq_of_lt (byte_swap_lt _ _)] at e3
  exact e3

theorem endian_reverse_unsigned (no_intrinsics : Bool) (N : integral_by_size) (u : Nat)
    (hu : u < 2 ^ N.bits) :
    endian_reverse no_intrinsics ⟨N, false⟩ (u : Int) = (byte_swap N.size u : Nat) := by
  have e : static_cast_uintN N (u : Int) = u := by
    unfold static_cast_uintN
    cases N <;> simp only [integral_by_size.bits, integral_by_size.size] at hu ⊢ <;> omega
  rw [endian_reverse_eq_byte_swap]
  simp [static_cast_T, e]

theorem endian_store_big_eq_little (no_intrinsics : Bool) (N : integral_by_size)
    (p : List Nat) (v : Int) :
    endian_store ⟨N, false⟩ N.size order.big p v
      = endian_store ⟨N, false⟩ N.size order.little p
        (endian_reverse no_intrinsics ⟨N, false⟩ v) := by
  have hu := static_cast_uintN_lt N v
  have hv : byte_swap N.size (static_cast_uintN N v) < 2 ^ N.bits := byte_swap_lt _ _
  have e : 8 * N.size = N.bits := rfl
  rw [endian_reverse_eq_byte_swap]
  simp only [endian_store, e]
  rw [static_cast_uintN_static_cast_T ⟨N, false⟩ _ hv, Nat.mod_eq_of_lt hu, Nat.mod_eq_of_lt hv,
    to_bytes_little_byte_swap]

theorem endian_load_big_eq_little (no_intrinsics : Bool) (N : integral_by_size)
    (b : List Nat) (hb : ∀ x ∈ b, x < 256) (hlen : N.size ≤ b.length) :
    endian_load ⟨N, false⟩ N.size order.big b
      = endian_reverse no_intrinsics ⟨N, false⟩ (endian_load ⟨N, false⟩ N.size order.little b) := by
  have hN1 : 1 ≤ N.size := by cases N <;> decide
  have ht : ∀ x ∈ b.take N.size, x < 256 := fun x hx => hb x (List.mem_of_mem_take hx)
  have hl : (b.take N.size).length = N.size := by simp; omega
  have hu : of_bytes order.little (b.take N.size) < 2 ^ N.bits := by
    have := of_bytes_lt order.little _ ht
    rwa [hl] at this
  rw [endian_load_eq _ _ _ _ hN1 (Nat.le_refl _) hb, endian_load_eq _ _ _ _ hN1 (Nat.le_refl _) hb]
  simp only [Bool.false_eq_true, false_and, if_false]
  rw [endian_reverse_unsigned _ _ _ hu, of_bytes_big_eq_byte_swap _ ht, hl]

/-- C21: for the full-width unsigned fields (16, 32 and 64 bits) the codec is a
plain byte swap: for every `v`, `store_big_uN(p, v)` writes the bytes that
`store_little_uN(p, endian_reverse(v))` writes, and for every sequence `b` of
`N / 8` bytes (or more), `load_big_uN(b) == endian_reverse(load_little_uN(b))`. -/
theorem full_width_codec_eq_byte_swap (no_intrinsics : Bool) (w : field_bits)
    (hw : w.bits = w.storage.bits) (p b : List Nat) (v : Int)
    (hb : ∀ x ∈ b, x < 256) (hlen : w.bytes ≤ b.length) :
    store_function order.big false w p v
        = store_function order.little false w p
          (endian_reverse no_intrinsics ⟨w.storage, false⟩ v) ∧
      load_function order.big false w b
        = endian_reverse no_intrinsics ⟨w.storage, false⟩
          (load_function order.little false w b) := by
  have hs : w.bytes = w.storage.size := by
    cases w <;> simp [field_bits.bits, field_bits.storage, integral_by_size.bits,
      integral_by_size.size, field_bits.bytes] at hw ⊢
  simp only [store_function_eq, load_function_eq, hs]
  exact ⟨endian_store_big_eq_little no_intrinsics w.storage p v,
    endian_load_big_eq_little no_intrinsics w.storage b hb (hs ▸ hlen)⟩

/-- Witness of C21: the 32-bit field, the value `0x01020304` and the bytes
`01 02 03 04`. -/
theorem full_width_codec_eq_byte_swap_witness :
    field_bits.b32.bits = field_bits.b32.storage.bits ∧
      (∀ x ∈ [1, 2, 3, 4], x < 256) ∧ field_bits.b32.bytes ≤ [1, 2, 3, 4].length ∧
      load_function order.big false field_bits.b32 [1, 2, 3, 4]
        = endian_reverse true ⟨field_bits.b32.storage, false⟩
          (load_function order.little false field_bits.b32 [1, 2, 3, 4]) ∧
      load_function order.big false field_bits.b32 [1, 2, 3, 4] = 0x01020304 ∧
      load_function order.little false field_bits.b32 [1, 2, 3, 4] = 0x04030201 :=
  ⟨by decide, by decide, by decide,
    (full_width_codec_eq_byte_swap true field_bits.b32 (by decide) [] [1, 2, 3, 4] 0x01020304
      (by decide) (by decide)).2,
    by decide, by decide⟩

/-! ## The arithmetic wrapper -/

theorem static_cast_in_range (T : integral_type) (r : Int) : T.in_range (static_cast T r) :=
  static_cast_T_in_range T _ (static_cast_uintN_lt _ _)

theorem static_cast_of_in_range (T : integral_type) (r : Int) (hr : T.in_range r) :
    static_cast T r = r :=
  static_cast_T_static_cast_uintN T r hr

theorem in_range_of_representable (T : integral_type) (n : Nat) (r : Int) (hn1 : 1 ≤ n)
    (hn2 : n ≤ T.uintN_t.size) (hr : representable T.is_signed (8 * n) r) : T.in_range r := by
  obtain ⟨U, sg⟩ := T
  unfold representable at hr
  unfold integral_type.in_range
  cases U <;> cases sg <;>
    simp only [integral_by_size.bits, integral_by_size.size, if_true, Bool.false_eq_true,
      if_false] at hn2 hr ⊢ <;>
    interval_cases n <;> omega

theorem arithmetic_result_of_representable (T : integral_type) (n : Nat) (r : Int) (hn1 : 1 ≤ n)
    (hn2 : n ≤ T.uintN_t.size) (hr : representable T.is_signed (8 * n) r) :
    arithmetic_result (promoted T) r = some r := by
  obtain ⟨U, sg⟩ := T
  unfold representable at hr
  unfold arithmetic_result promoted int32_t
  cases U <;> cases sg <;>
    simp only [integral_by_size.bits, integral_by_size.size, if_true, Bool.false_eq_true,
      if_false, Nat.reduceMul, Nat.reduceLT, Nat.lt_irrefl] at hn2 hr ⊢ <;>
    interval_cases n <;>
    first
      | (rw [if_pos (by omega)])
      | (congr 1; omega)

theorem endian_load_endian_store_of_representable (T : integral_type) (N : Nat) (o : order)
    (p : List Nat) (v : Int) (hN1 : 1 ≤ N) (hN2 : N ≤ T.uintN_t.size)
    (hv : representable T.is_signed (8 * N) v) :
    endian_load T N o (endian_store T N o p v) = v := by
  rw [endian_load_endian_store T T N o p v hN1 hN2]
  obtain ⟨U, sg⟩ := T
  unfold representable at hv
  unfold static_cast_uintN
  cases U <;> cases sg <;>
    simp only [integral_by_size.bits, integral_by_size.size, if_true, Bool.false_eq_true,
      if_false, true_and, false_and] at hN2 hv ⊢ <;>
    interval_cases N <;> omega

theorem endian_arithmetic.value_assign {Order : order} {T : integral_type} {n_bits : Nat}
    (x : endian_arithmetic Order T n_bits) (v : Int) :
    (x.assign v).value
      = endian_load T (n_bits / 8) Order (endian_store T (n_bits / 8) Order x.data v) :=
  rfl

theorem endian_arithmetic.value_assign_of_representable {Order : order} {T : integral_type}
    (n : Nat) (x : endian_arithmetic Order T (8 * n)) (v : Int) (hn1 : 1 ≤ n)
    (hn2 : n ≤ T.uintN_t.size) (hv : representable T.is_signed (8 * n) v) :
    (x.assign v).value = v := by
  rw [endian_arithmetic.value_assign, Nat.mul_div_cancel_left n (by norm_num : 0 < 8)]
  exact endian_load_endian_store_of_representable T n Order _ v hn1 hn2 hv

theorem endian_arithmetic.value_assign_full_width {Order : order} {T : integral_type}
    {n_bits : Nat} (x : endian_arithmetic Order T n_bits) (v : Int)
    (hfull : n_bits = T.uintN_t.bits) (hv : T.in_range v) : (x.assign v).value = v := by
  have hN1 : 1 ≤ T.uintN_t.size := by cases T.uintN_t <;> decide
  have hr : representable T.is_signed (8 * T.uintN_t.size) v := by
    obtain ⟨U, sg⟩ := T
    unfold integral_type.in_range at hv
    unfold representable
    exact hv
  have e : n_bits / 8 = T.uintN_t.size := by
    rw [hfull]; unfold integral_by_size.bits; omega
  rw [endian_arithmetic.value_assign, e]
  exact endian_load_endian_store_of_representable T _ Order _ v hN1 (Nat.le_refl _) hr

theorem endian_arithmetic.operator_assign_eq {Order : order} {T : integral_type} {n_bits : Nat}
    (op : binary_operator) (x : endian_arithmetic Order T n_bits) (y : Int) :
    x.operator_assign op y
      = (builtin T op x.value y).map (fun r => x.assign (static_cast T r)) := by
  cases op <;> rfl

/-! ## The claims on the arithmetic wrapper -/

theorem builtin_defined (T : integral_type) (a z : Int) :
    (builtin T binary_operator.bit_and a z).isSome = true ∧
      (builtin T binary_operator.bit_or a z).isSome = true ∧
      (builtin T binary_operator.bit_xor a z).isSome = true ∧
      (T.is_signed = false → 32 ≤ T.uintN_t.bits →
        (builtin T binary_operator.plus a z).isSome = true ∧
          (builtin T binary_operator.minus a z).isSome = true ∧
          (builtin T binary_operator.times a z).isSome = true ∧
          (z ≠ 0 → (builtin T binary_operator.divide a z).isSome = true ∧
            (builtin T binary_operator.modulo a z).isSome = true) ∧
          (0 ≤ z → z < T.uintN_t.bits →
            (builtin T binary_operator.shift_left a z).isSome = true ∧
              (builtin T binary_operator.shift_right a z).isSome = true)) ∧
      ((promoted T).is_signed = true →
        ((builtin T binary_operator.plus a z).isSome = true ↔
          -(2 : Int) ^ ((promoted T).uintN_t.bits - 1) ≤ a + z ∧
            a + z < (2 : Int) ^ ((promoted T).uintN_t.bits - 1)) ∧
        ((builtin T binary_operator.minus a z).isSome = true ↔
          -(2 : Int) ^ ((promoted T).uintN_t.bits - 1) ≤ a - z ∧
            a - z < (2 : Int) ^ ((promoted T).uintN_t.bits - 1)) ∧
        ((builtin T binary_operator.times a z).isSome = true ↔
          -(2 : Int) ^ ((promoted T).uintN_t.bits - 1) ≤ a * z ∧
            a * z < (2 : Int) ^ ((promoted T).uintN_t.bits - 1)) ∧
        ((builtin T binary_operator.divide a z).isSome = true ↔
          z ≠ 0 ∧ -(2 : Int) ^ ((promoted T).uintN_t.bits - 1) ≤ Int.tdiv a z ∧
            Int.tdiv a z < (2 : Int) ^ ((promoted T).uintN_t.bits - 1)) ∧
        ((builtin T binary_operator.modulo a z).isSome = true ↔
          z ≠ 0 ∧ -(2 : Int) ^ ((promoted T).uintN_t.bits - 1) ≤ Int.tdiv a z ∧
            Int.tdiv a z < (2 : Int) ^ ((promoted T).uintN_t.bits - 1))) := by
  refine ⟨rfl, rfl, rfl, ?_, ?_⟩
  · intro hs h32
    have hp : promoted T = T := by
      unfold promoted
      rw [if_neg (by omega)]
    refine ⟨?_, ?_, ?_, ?_, ?_⟩
    · simp [builtin, arithmetic_result, hp, hs]
    · simp [builtin, arithmetic_result, hp, hs]
    · simp [builtin, arithmetic_result, hp, hs]
    · intro hz
      simp [builtin, arithmetic_result, hp, hs, hz]
    · intro h0 hlt
      have hc : ¬ (z < 0 ∨ (T.uintN_t.bits : Int) ≤ z) := by omega
      simp only [builtin, hp, hs, if_neg hc, Bool.false_eq_true, if_false, Option.isSome_some,
        and_self]
  · intro hs
    refine ⟨?_, ?_, ?_, ?_, ?_⟩
    · simp only [builtin, arithmetic_result, hs, if_true]
      split <;> simp_all
    · simp only [builtin, arithmetic_result, hs, if_true]
      split <;> simp_all
    · simp only [builtin, arithmetic_result, hs, if_true]
      split <;> simp_all
    · simp only [builtin, arithmetic_result, hs, if_true]
      by_cases hz : z = 0
      · simp [hz]
      · rw [if_neg hz]
        split <;> simp_all
    · simp only [builtin, arithmetic_result, hs, if_true]
      by_cases hz : z = 0
      · simp [hz]
      · rw [if_neg hz]
        split <;> simp_all

/-- C22, as stated, fails: compound assignments inside the side conditions of the
claim have no defined result. On a 32-bit signed wrapper `x += 1` at `2147483647`,
`x /= -1` at `-2147483648` (a divisor other than zero) and `x <<= 1` at `-1` (a
shift count in range) are undefined, and so is `x *= 0xFFFF` on a 16-bit
unsigned wrapper holding `0xFFFF`, whose operands are promoted to `int`. -/
theorem compound_assignment_undefined :
    (endian_arithmetic.construct order.big int32_t 32 2147483647).operator_assign
        binary_operator.plus 1 = none ∧
      builtin int32_t binary_operator.plus
        (endian_arithmetic.construct order.big int32_t 32 2147483647).value 1 = none ∧
      (endian_arithmetic.construct order.big int32_t 32 (-2147483648)).operator_assign
        binary_operator.divide (-1) = none ∧
      (endian_arithmetic.construct order.big int32_t 32 (-1)).operator_assign
        binary_operator.shift_left 1 = none ∧
      (endian_arithmetic.construct order.big uint16_t 16 0xFFFF).operator_assign
        binary_operator.times 0xFFFF = none := by
  decide

/-- C22, amended: for every wrapper `x` holding `a` and every operand `y`, each
compound assignment `x op= y` whose native expression `a op y` is defined, with
value `r`, leaves `x` as the assignment of `static_cast<T>(r)` leaves it (read
the value, apply the native operation, store back), so `x.value()` is the value
that assignment gives; for a full-width wrapper that value is
`static_cast<T>(r)`, whatever the byte order of the wrapper. Where the native
expression is undefined, the compound assignment has no defined result. The
native expression is defined for `&`, `|` and `^` always; for an unsigned `T` of
32 bits or more also for `+`, `-` and `*`, for `/` and `%` with `y != 0`, and
for `<<` and `>>` with a shift count in range; in a signed promoted type `+`,
`-` and `*` are defined exactly when the promoted type can represent the result,
`/` and `%` exactly when `y != 0` and it can represent the quotient. -/
theorem compound_assignment_spec {Order : order} {T : integral_type} {n_bits : Nat}
    (op : binary_operator) (x : endian_arithmetic Order T n_bits) (y r : Int)
    (hr : builtin T op x.value y = some r) :
    x.operator_assign op y = some (x.assign (static_cast T r)) ∧
      (∀ x1, x.operator_assign op y = some x1 → x1.value = (x.assign (static_cast T r)).value) ∧
      (n_bits = T.uintN_t.bits →
        ∀ x1, x.operator_assign op y = some x1 → x1.value = static_cast T r) ∧
      (∀ z, x.operator_assign op z
        = (builtin T op x.value z).map (fun s => x.assign (static_cast T s))) ∧
      (∀ z, builtin T op x.value z = none → x.operator_assign op z = none) ∧
      (∀ a z : Int,
        (builtin T binary_operator.bit_and a z).isSome = true ∧
          (builtin T binary_operator.bit_or a z).isSome = true ∧
          (builtin T binary_operator.bit_xor a z).isSome = true ∧
          (T.is_signed = false → 32 ≤ T.uintN_t.bits →
            (builtin T binary_operator.plus a z).isSome = true ∧
              (builtin T binary_operator.minus a z).isSome = true ∧
              (builtin T binary_operator.times a z).isSome = true ∧
              (z ≠ 0 → (builtin T binary_operator.divide a z).isSome = true ∧
                (builtin T binary_operator.modulo a z).isSome = true) ∧
              (0 ≤ z → z < T.uintN_t.bits →
                (builtin T binary_operator.shift_left a z).isSome = true ∧
                  (builtin T binary_operator.shift_right a z).isSome = true)) ∧
          ((promoted T).is_signed = true →
            ((builtin T binary_operator.plus a z).isSome = true ↔
              -(2 : Int) ^ ((promoted T).uintN_t.bits - 1) ≤ a + z ∧
                a + z < (2 : Int) ^ ((promoted T).uintN_t.bits - 1)) ∧
            ((builtin T binary_operator.minus a z).isSome = true ↔
              -(2 : Int) ^ ((promoted T).uintN_t.bits - 1) ≤ a - z ∧
                a - z < (2 : Int) ^ ((promoted T).uintN_t.bits - 1)) ∧
            ((builtin T binary_operator.times a z).isSome = true ↔
              -(2 : Int) ^ ((promoted T).uintN_t.bits - 1) ≤ a * z ∧
                a * z < (2 : Int) ^ ((promoted T).uintN_t.bits - 1)) ∧
            ((builtin T binary_operator.divide a z).isSome = true ↔
              z ≠ 0 ∧ -(2 : Int) ^ ((promoted T).uintN_t.bits - 1) ≤ Int.tdiv a z ∧
                Int.tdiv a z < (2 : Int) ^ ((promoted T).uintN_t.bits - 1)) ∧
            ((builtin T binary_operator.modulo a z).isSome = true ↔
              z ≠ 0 ∧ -(2 : Int) ^ ((promoted T).uintN_t.bits - 1) ≤ Int.tdiv a z ∧
                Int.tdiv a z < (2 : Int) ^ ((promoted T).uintN_t.bits - 1)))) := by
  have e : x.operator_assign op y = some (x.assign (static_cast T r)) := by
    rw [endian_arithmetic.operator_assign_eq, hr]; rfl
  refine ⟨e, ?_, ?_, fun z => endian_arithmetic.operator_assign_eq op x z, ?_,
    fun a z => builtin_defined T a z⟩
  · intro x1 h1
    rw [e] at h1
    rw [← Option.some.inj h1]
  · intro hfull x1 h1
    rw [e] at h1
    rw [← Option.some.inj h1]
    exact endian_arithmetic.value_assign_full_width x _ hfull (static_cast_in_range T r)
  · intro z hz
    rw [endian_arithmetic.operator_assign_eq, hz]
    rfl

/-- Witness of C22: `x += 7` on a big-endian 32-bit unsigned wrapper holding
`0xFFFFFFFE`, which then holds `5`. -/
theorem compound_assignment_spec_witness :
    builtin uint32_t binary_operator.plus
        (endian_arithmetic.construct order.big uint32_t 32 0xFFFFFFFE).value 7 = some 5 ∧
      (endian_arithmetic.construct order.big uint32_t 32 0xFFFFFFFE).operator_assign
          binary_operator.plus 7
        = some ((endian_arithmetic.construct order.big uint32_t 32 0xFFFFFFFE).assign
          (static_cast uint32_t 5)) ∧
      (32 = uint32_t.uintN_t.bits →
        ∀ x1, (endian_arithmetic.construct order.big uint32_t 32 0xFFFFFFFE).operator_assign
          binary_operator.plus 7 = some x1 → x1.value = static_cast uint32_t 5) ∧
      ((endian_arithmetic.construct order.big uint32_t 32 0xFFFFFFFE).assign
          (static_cast uint32_t 5)).data = [0, 0, 0, 5] :=
  ⟨by decide,
    (compound_assignment_spec binary_operator.plus
      (endian_arithmetic.construct order.big uint32_t 32 0xFFFFFFFE) 7 5 (by decide)).1,
    (compound_assignment_spec binary_operator.plus
      (endian_arithmetic.construct order.big uint32_t 32 0xFFFFFFFE) 7 5 (by decide)).2.2.1,
    by decide⟩

/-- C23, as stated, fails at the ends of the range of the field: on a signed
24-bit wrapper holding `8388607` the prefix `++x` leaves `-8388608`, not
`8388608`; on an unsigned 24-bit wrapper holding `0` the prefix `--x` leaves
`16777215`, not `-1`, and `x++` at `16777215` leaves `0`; on a 32-bit signed
wrapper holding `2147483647` the prefix `++x` has no defined result. -/
theorem increment_decrement_at_boundary :
    ((endian_arithmetic.construct order.big int32_t 24 8388607).operator_pre_increment).map
        (fun x1 => x1.value) = some (-8388608) ∧
      ((endian_arithmetic.construct order.big int32_t 24 8388607).operator_pre_increment).map
        (fun x1 => x1.value)
        ≠ some ((endian_arithmetic.construct order.big int32_t 24 8388607).value + 1) ∧
      ((endian_arithmetic.construct order.big uint32_t 24 0).operator_pre_decrement).map
        (fun x1 => x1.value) = some 16777215 ∧
      ((endian_arithmetic.construct order.big uint32_t 24 0).operator_pre_decrement).map
        (fun x1 => x1.value)
        ≠ some ((endian_arithmetic.construct order.big uint32_t 24 0).value - 1) ∧
      ((endian_arithmetic.construct order.big uint32_t 24 16777215).operator_post_increment).map
        (fun r => r.2.value)
        ≠ some ((endian_arithmetic.construct order.big uint32_t 24 16777215).value + 1) ∧
      (endian_arithmetic.construct order.big int32_t 32 2147483647).operator_pre_increment
        = none := by
  decide

/-- C23, amended: for every wrapper `x` of `8 * n` bits holding `a`: the prefix
`++x` (`--x`) is `x += 1` (`x -= 1`) and its result is `x` itself in its new
state, which holds `a + 1` (`a - 1`) whenever the `8 * n` bits of the field can
represent that value with the signedness of `T`; the postfix `x++` (`x--`)
returns the prior `x`, whose `value()` is `a` and whose bytes are the prior
bytes, and leaves `x` in the state the prefix form leaves it in. -/
theorem increment_decrement_spec {Order : order} {T : integral_type} (n : Nat)
    (x : endian_arithmetic Order T (8 * n)) (hn1 : 1 ≤ n) (hn2 : n ≤ T.uintN_t.size) :
    x.operator_pre_increment = x.operator_plus_assign 1 ∧
      x.operator_pre_decrement = x.operator_minus_assign 1 ∧
      (representable T.is_signed (8 * n) (x.value + 1) →
        ∃ x1, x.operator_pre_increment = some x1 ∧ x1.value = x.value + 1 ∧
          x.operator_post_increment = some (x, x1)) ∧
      (representable T.is_signed (8 * n) (x.value - 1) →
        ∃ x1, x.operator_pre_decrement = some x1 ∧ x1.value = x.value - 1 ∧
          x.operator_post_decrement = some (x, x1)) ∧
      (∀ tmp x1, x.operator_post_increment = some (tmp, x1) →
        tmp.value = x.value ∧ tmp.data = x.data ∧ x.operator_pre_increment = some x1) ∧
      (∀ tmp x1, x.operator_post_decrement = some (tmp, x1) →
        tmp.value = x.value ∧ tmp.data = x.data ∧ x.operator_pre_decrement = some x1) := by
  refine ⟨rfl, rfl, ?_, ?_, ?_, ?_⟩
  · intro h
    have h1 : builtin T binary_operator.plus x.value 1 = some (x.value + 1) :=
      arithmetic_result_of_representable T n _ hn1 hn2 h
    have h2 := static_cast_of_in_range T _ (in_range_of_representable T n _ hn1 hn2 h)
    refine ⟨x.assign (x.value + 1), ?_, ?_, ?_⟩
    · simp only [endian_arithmetic.operator_pre_increment,
        endian_arithmetic.operator_plus_assign, h1, Option.map_some', h2]
    · exact endian_arithmetic.value_assign_of_representable n x _ hn1 hn2 h
    · simp only [endian_arithmetic.operator_post_increment,
        endian_arithmetic.operator_plus_assign, h1, Option.map_some', h2]
  · intro h
    have h1 : builtin T binary_operator.minus x.value 1 = some (x.value - 1) :=
      arithmetic_result_of_representable T n _ hn1 hn2 h
    have h2 := static_cast_of_in_range T _ (in_range_of_representable T n _ hn1 hn2 h)
    refine ⟨x.assign (x.value - 1), ?_, ?_, ?_⟩
    · simp only [endian_arithmetic.operator_pre_decrement,
        endian_arithmetic.operator_minus_assign, h1, Option.map_some', h2]
    · exact endian_arithmetic.value_assign_of_representable n x _ hn1 hn2 h
    · simp only [endian_arithmetic.operator_post_decrement,
        endian_arithmetic.operator_minus_assign, h1, Option.map_some', h2]
  · intro tmp x1 h
    simp only [endian_arithmetic.operator_post_increment, Option.map_eq_some',
      Prod.mk.injEq] at h
    obtain ⟨a, ha, hx, hx1⟩ := h
    subst hx hx1
    exact ⟨rfl, rfl, ha⟩
  · intro tmp x1 h
    simp only [endian_arithmetic.operator_post_decrement, Option.map_eq_some',
      Prod.mk.injEq] at h
    obtain ⟨a, ha, hx, hx1⟩ := h
    subst hx hx1
    exact ⟨rfl, rfl, ha⟩

/-- Witness of C23: a big-endian signed 24-bit wrapper holding `-1`, which `++x`
and `x++` leave holding `0`. -/
theorem increment_decrement_spec_witness :
    1 ≤ 3 ∧ 3 ≤ int32_t.uintN_t.size ∧
      representable int32_t.is_signed (8 * 3)
        ((endian_arithmetic.construct order.big int32_t (8 * 3) (-1)).value + 1) ∧
      (∃ x1, (endian_arithmetic.construct order.big int32_t (8 * 3) (-1)).operator_pre_increment
          = some x1 ∧
        x1.value = (endian_arithmetic.construct order.big int32_t (8 * 3) (-1)).value + 1 ∧
        (endian_arithmetic.construct order.big int32_t (8 * 3) (-1)).operator_post_increment
          = some (endian_arithmetic.construct order.big int32_t (8 * 3) (-1), x1)) ∧
      (endian_arithmetic.construct order.big int32_t (8 * 3) (-1)).operator_post_increment
        = some (endian_arithmetic.construct order.big int32_t (8 * 3) (-1),
            endian_arithmetic.construct order.big int32_t (8 * 3) 0) :=
  have h : representable int32_t.is_signed (8 * 3)
      ((endian_arithmetic.construct order.big int32_t (8 * 3) (-1)).value + 1) := by
    have hv : (endian_arithmetic.construct order.big int32_t (8 * 3) (-1)).value = -1 := by
      decide
    rw [hv]
    simp [representable, int32_t]
  ⟨by decide, by decide, h,
    (increment_decrement_spec 3 (endian_arithmetic.construct order.big int32_t (8 * 3) (-1))
      (by decide) (by decide)).2.2.1 h,
    by decide⟩

theorem endian_arithmetic.data_construct (Order : order) (T : integral_type) (n : Nat)
    (v : Int) :
    (endian_arithmetic.construct Order T (8 * n) v).data
      = to_bytes Order n (static_cast_uintN T.uintN_t v % 2 ^ (8 * n)) := by
  simp [endian_arithmetic.construct, endian_arithmetic.data, endian_buffer.construct,
    endian_store]

theorem endian_arithmetic.value_construct (Order : order) (T : integral_type) (n : Nat)
    (v : Int) (hn1 : 1 ≤ n) (hn2 : n ≤ T.uintN_t.size)
    (hv : representable T.is_signed (8 * n) v) :
    (endian_arithmetic.construct Order T (8 * n) v).value = v := by
  have e : (endian_arithmetic.construct Order T (8 * n) v).value
      = endian_load T (8 * n / 8) Order
        (endian_store T (8 * n / 8) Order (List.replicate (8 * n / 8) 0) v) := rfl
  rw [e, Nat.mul_div_cancel_left n (by norm_num : 0 < 8)]
  exact endian_load_endian_store_of_representable T n Order _ v hn1 hn2 hv

/-- C24: comparison of wrappers is by numeric value, not by stored bytes: for
two wrappers `a` and `b` over the same underlying type, of any byte orders,
`a == b` holds iff `a.value() == b.value()` and `a < b` iff
`a.value() < b.value()`; a big-endian and a little-endian wrapper constructed
from the same representable `v` both hold `v` and compare equal, while the bytes
of the one are the bytes of the other in reverse order, so their `data()` differ
exactly when the bytes are no palindrome. -/
theorem comparison_by_value {T : integral_type} {O1 O2 : order} {n1 n2 : Nat}
    (a : endian_arithmetic O1 T n1) (b : endian_arithmetic O2 T n2) (n : Nat) (v : Int)
    (hn1 : 1 ≤ n) (hn2 : n ≤ T.uintN_t.size) (hv : representable T.is_signed (8 * n) v) :
    (a.operator_eq b = true ↔ a.value = b.value) ∧
      (a.operator_lt b = true ↔ a.value < b.value) ∧
      (endian_arithmetic.construct order.big T (8 * n) v).value = v ∧
      (endian_arithmetic.construct order.little T (8 * n) v).value = v ∧
      (endian_arithmetic.construct order.big T (8 * n) v).operator_eq
        (endian_arithmetic.construct order.little T (8 * n) v) = true ∧
      (endian_arithmetic.construct order.big T (8 * n) v).data
        = (endian_arithmetic.construct order.little T (8 * n) v).data.reverse ∧
      ((endian_arithmetic.construct order.big T (8 * n) v).data
          ≠ (endian_arithmetic.construct order.little T (8 * n) v).data ↔
        (endian_arithmetic.construct order.little T (8 * n) v).data.reverse
          ≠ (endian_arithmetic.construct order.little T (8 * n) v).data) := by
  have hb := endian_arithmetic.value_construct order.big T n v hn1 hn2 hv
  have hl := endian_arithmetic.value_construct order.little T n v hn1 hn2 hv
  have hd : (endian_arithmetic.construct order.big T (8 * n) v).data
      = (endian_arithmetic.construct order.little T (8 * n) v).data.reverse := by
    rw [endian_arithmetic.data_construct, endian_arithmetic.data_construct]
    rfl
  refine ⟨?_, ?_, hb, hl, ?_, hd, ?_⟩
  · simp [endian_arithmetic.operator_eq, endian_arithmetic.operator_value_type]
  · simp [endian_arithmetic.operator_lt, endian_arithmetic.operator_value_type]
  · simp [endian_arithmetic.operator_eq, endian_arithmetic.operator_value_type, hb, hl]
  · rw [hd]

/-- Witness of C24: the value `0x0102` in 16-bit unsigned wrappers of both
orders, whose bytes `01 02` and `02 01` differ. -/
theorem comparison_by_value_witness :
    1 ≤ 2 ∧ 2 ≤ uint16_t.uintN_t.size ∧ representable uint16_t.is_signed (8 * 2) 0x0102 ∧
      (endian_arithmetic.construct order.big uint16_t (8 * 2) 0x0102).operator_eq
        (endian_arithmetic.construct order.little uint16_t (8 * 2) 0x0102) = true ∧
      (endian_arithmetic.construct order.big uint16_t (8 * 2) 0x0102).data = [1, 2] ∧
      (endian_arithmetic.construct order.little uint16_t (8 * 2) 0x0102).data = [2, 1] :=
  have h : representable uint16_t.is_signed (8 * 2) 0x0102 := by
    simp [representable, uint16_t]
  ⟨by decide, by decide, h,
    (comparison_by_value (endian_arithmetic.construct order.big uint16_t (8 * 2) 0x0102)
      (endian_arithmetic.construct order.little uint16_t (8 * 2) 0x0102) 2 0x0102
      (by decide) (by decide) h).2.2.2.2.1,
    by decide, by decide⟩

/-- C25, as stated, fails: on a 32-bit signed wrapper holding `7` the
assignments `x /= 0` and `x %= 0` have no defined result. -/
theorem divide_by_zero_undefined :
    (endian_arithmetic.construct order.big int32_t 32 7).operator_divide_assign 0 = none ∧
      (endian_arithmetic.construct order.big int32_t 32 7).operator_modulo_assign 0 = none := by
  decide

/-- C25, amended: a compound assignment is defined exactly where the native
operation of the underlying type is; `operator/=` and `operator%=` have no
defined result for the divisor `0`, and produce one for every divisor `y != 0`
whose quotient the promoted type can represent, which for an unsigned `T` of 32
bits or more is every `y != 0`; the bitwise assignments `&=`, `|=` and `^=` are
defined for all operands. -/
theorem compound_assignment_defined {Order : order} {T : integral_type} {n_bits : Nat}
    (x : endian_arithmetic Order T n_bits) (y : Int) :
    (∀ op, (x.operator_assign op y).isSome = (builtin T op x.value y).isSome) ∧
      x.operator_divide_assign 0 = none ∧
      x.operator_modulo_assign 0 = none ∧
      (y ≠ 0 → (arithmetic_result (promoted T) (Int.tdiv x.value y)).isSome = true →
        (x.operator_divide_assign y).isSome = true ∧
          (x.operator_modulo_assign y).isSome = true) ∧
      (y ≠ 0 → T.is_signed = false → 32 ≤ T.uintN_t.bits →
        (x.operator_divide_assign y).isSome = true ∧
          (x.operator_modulo_assign y).isSome = true) ∧
      (x.operator_and_assign y).isSome = true ∧
      (x.operator_or_assign y).isSome = true ∧
      (x.operator_xor_assign y).isSome = true := by
  have hq : ∀ (hy : y ≠ 0), (arithmetic_result (promoted T) (Int.tdiv x.value y)).isSome = true →
      (x.operator_divide_assign y).isSome = true ∧
        (x.operator_modulo_assign y).isSome = true := by
    intro hy h
    simp only [endian_arithmetic.operator_divide_assign, endian_arithmetic.operator_modulo_assign,
      builtin, if_neg hy, Option.isSome_map', h, and_self]
  refine ⟨?_, ?_, ?_, hq, ?_, rfl, rfl, rfl⟩
  · intro op
    rw [endian_arithmetic.operator_assign_eq, Option.isSome_map']
  · simp [endian_arithmetic.operator_divide_assign, builtin]
  · simp [endian_arithmetic.operator_modulo_assign, builtin]
  · intro hy hs h32
    apply hq hy
    have hp : promoted T = T := by
      unfold promoted
      rw [if_neg (by omega)]
    rw [hp]
    simp [arithmetic_result, hs]

/-! ## Arithmetic on a narrow unsigned wrapper -/

theorem endian_arithmetic.value_assign_static_cast_unsigned {Order : order}
    {T : integral_type} (n : Nat) (x : endian_arithmetic Order T (8 * n)) (r : Int)
    (hT : T.is_signed = false) (hn1 : 1 ≤ n) (hn2 : n ≤ T.uintN_t.size) :
    (x.assign (static_cast T r)).value = r % 2 ^ (8 * n) := by
  rw [endian_arithmetic.value_assign, Nat.mul_div_cancel_left n (by norm_num : 0 < 8),
    endian_load_endian_store T T n Order _ _ hn1 hn2]
  obtain ⟨U, sg⟩ := T
  simp only at hT
  subst hT
  unfold static_cast static_cast_T static_cast_uintN
  cases U <;>
    simp only [integral_by_size.bits, integral_by_size.size, Bool.false_eq_true, if_false,
      false_and, Bool.false_and] at hn2 ⊢ <;>
    interval_cases n <;> omega

theorem builtin_plus_unsigned (T : integral_type) (n : Nat) (a y : Int)
    (hT : T.is_signed = false) (hn1 : 1 ≤ n) (hn2 : n ≤ T.uintN_t.size)
    (ha : 0 ≤ a ∧ a < 2 ^ (8 * n)) (hy : T.in_range y) :
    ∃ r, builtin T binary_operator.plus a y = some r ∧ r % 2 ^ (8 * n) = (a + y) % 2 ^ (8 * n) := by
  obtain ⟨U, sg⟩ := T
  simp only at hT
  subst hT
  unfold integral_type.in_range at hy
  simp only [builtin, arithmetic_result, promoted, int32_t]
  cases U <;>
    simp only [integral_by_size.bits, integral_by_size.size, Bool.false_eq_true, if_false,
      if_true, Nat.reduceMul, Nat.reduceLT, Nat.lt_irrefl] at hn2 hy ⊢ <;>
    interval_cases n <;>
    first
      | exact ⟨a + y, by rw [if_pos (by omega)], rfl⟩
      | exact ⟨_, rfl, by omega⟩

theorem builtin_minus_unsigned (T : integral_type) (n : Nat) (a y : Int)
    (hT : T.is_signed = false) (hn1 : 1 ≤ n) (hn2 : n ≤ T.uintN_t.size)
    (ha : 0 ≤ a ∧ a < 2 ^ (8 * n)) (hy : T.in_range y) :
    ∃ r, builtin T binary_operator.minus a y = some r ∧
      r % 2 ^ (8 * n) = (a - y) % 2 ^ (8 * n) := by
  obtain ⟨U, sg⟩ := T
  simp only at hT
  subst hT
  unfold integral_type.in_range at hy
  simp only [builtin, arithmetic_result, promoted, int32_t]
  cases U <;>
    simp only [integral_by_size.bits, integral_by_size.size, Bool.false_eq_true, if_false,
      if_true, Nat.reduceMul, Nat.reduceLT, Nat.lt_irrefl] at hn2 hy ⊢ <;>
    interval_cases n <;>
    first
      | exact ⟨a - y, by rw [if_pos (by omega)], rfl⟩
      | exact ⟨_, rfl, by omega⟩

theorem endian_arithmetic.operator_plus_assign_unsigned {Order : order} {T : integral_type}
    (n : Nat) (x : endian_arithmetic Order T (8 * n)) (y : Int) (hT : T.is_signed = false)
    (hn1 : 1 ≤ n) (hn2 : n ≤ T.uintN_t.size) (ha : 0 ≤ x.value ∧ x.value < 2 ^ (8 * n))
    (hy : T.in_range y) :
    ∃ x1, x.operator_plus_assign y = some x1 ∧ x1.value = (x.value + y) % 2 ^ (8 * n) := by
  obtain ⟨r, h1, h2⟩ := builtin_plus_unsigned T n x.value y hT hn1 hn2 ha hy
  refine ⟨x.assign (static_cast T r), ?_, ?_⟩
  · simp only [endian_arithmetic.operator_plus_assign, h1, Option.map_some']
  · rw [endian_arithmetic.value_assign_static_cast_unsigned n x r hT hn1 hn2, h2]

theorem endian_arithmetic.operator_minus_assign_unsigned {Order : order} {T : integral_type}
    (n : Nat) (x : endian_arithmetic Order T (8 * n)) (y : Int) (hT : T.is_signed = false)
    (hn1 : 1 ≤ n) (hn2 : n ≤ T.uintN_t.size) (ha : 0 ≤ x.value ∧ x.value < 2 ^ (8 * n))
    (hy : T.in_range y) :
    ∃ x1, x.operator_minus_assign y = some x1 ∧ x1.value = (x.value - y) % 2 ^ (8 * n) := by
  obtain ⟨r, h1, h2⟩ := builtin_minus_unsigned T n x.value y hT hn1 hn2 ha hy
  refine ⟨x.assign (static_cast T r), ?_, ?_⟩
  · simp only [endian_arithmetic.operator_minus_assign, h1, Option.map_some']
  · rw [endian_arithmetic.value_assign_static_cast_unsigned n x r hT hn1 hn2, h2]

theorem in_range_one (T : integral_type) : T.in_range 1 := by
  obtain ⟨U, sg⟩ := T
  unfold integral_type.in_range
  cases U <;> cases sg <;>
    simp only [integral_by_size.bits, integral_by_size.size, if_true, Bool.false_eq_true,
      if_false] <;>
    omega

/-- C31: arithmetic on a narrow unsigned wrapper is arithmetic modulo
`2 ^ n_bits`: for a wrapper `x` over an unsigned `T` with `n_bits = 8 * n` below
the width of `T` (or equal to it), holding `a < 2 ^ n_bits`, and every `y` of
`T`, after `x += y` the value is `(a + y) mod 2 ^ n_bits` and after `x -= y` it
is `(a - y) mod 2 ^ n_bits`; `++x` followed by `--x` restores `a`; on a
`big_uint24_t`, `++` on `0xFFFFFF` yields `0` and `--` on `0` yields
`0xFFFFFF`. -/
theorem narrow_unsigned_arithmetic {Order : order} {T : integral_type} (n : Nat)
    (x : endian_arithmetic Order T (8 * n)) (y : Int) (hT : T.is_signed = false)
    (hn1 : 1 ≤ n) (hn2 : n ≤ T.uintN_t.size) (ha : 0 ≤ x.value ∧ x.value < 2 ^ (8 * n))
    (hy : T.in_range y) :
    (∃ x1, x.operator_plus_assign y = some x1 ∧ x1.value = (x.value + y) % 2 ^ (8 * n)) ∧
      (∃ x1, x.operator_minus_assign y = some x1 ∧ x1.value = (x.value - y) % 2 ^ (8 * n)) ∧
      (∃ x1 x2, x.operator_pre_increment = some x1 ∧ x1.operator_pre_decrement = some x2 ∧
        x2.value = x.value) ∧
      ((endian_arithmetic.construct order.big uint32_t 24 0xFFFFFF :
        big_uint24_t).operator_pre_increment).map (fun x1 => x1.value) = some 0 ∧
      ((endian_arithmetic.construct order.big uint32_t 24 0 :
        big_uint24_t).operator_pre_decrement).map (fun x1 => x1.value) = some 0xFFFFFF := by
  have hM : (0 : Int) < 2 ^ (8 * n) := by positivity
  refine ⟨endian_arithmetic.operator_plus_assign_unsigned n x y hT hn1 hn2 ha hy,
    endian_arithmetic.operator_minus_assign_unsigned n x y hT hn1 hn2 ha hy, ?_, by decide,
    by decide⟩
  obtain ⟨x1, h1, v1⟩ :=
    endian_arithmetic.operator_plus_assign_unsigned n x 1 hT hn1 hn2 ha (in_range_one T)
  have hb : 0 ≤ x1.value ∧ x1.value < 2 ^ (8 * n) := by
    rw [v1]
    exact ⟨Int.emod_nonneg _ (ne_of_gt hM), Int.emod_lt_of_pos _ hM⟩
  obtain ⟨x2, h2, v2⟩ :=
    endian_arithmetic.operator_minus_assign_unsigned n x1 1 hT hn1 hn2 hb (in_range_one T)
  refine ⟨x1, x2, h1, h2, ?_⟩
  rw [v2, v1, Int.sub_emod, Int.emod_emod, ← Int.sub_emod, Int.add_sub_cancel,
    Int.emod_eq_of_lt ha.1 ha.2]

/-- Witness of C31: a little-endian 24-bit wrapper over `uint32_t` holding
`0xFFFFFF`, and `y = 2`. -/
theorem narrow_unsigned_arithmetic_witness :
    uint32_t.is_signed = false ∧ 1 ≤ 3 ∧ 3 ≤ uint32_t.uintN_t.size ∧
      (∃ x1, (endian_arithmetic.construct order.little uint32_t (8 * 3)
          0xFFFFFF).operator_plus_assign 2 = some x1 ∧
        x1.value = ((endian_arithmetic.construct order.little uint32_t (8 * 3) 0xFFFFFF).value
          + 2) % 2 ^ (8 * 3)) ∧
      ((endian_arithmetic.construct order.little uint32_t (8 * 3) 0xFFFFFF).operator_plus_assign
        2).map (fun x1 => x1.value) = some 1 :=
  ⟨rfl, by decide, by decide,
    (narrow_unsigned_arithmetic 3
      (endian_arithmetic.construct order.little uint32_t (8 * 3) 0xFFFFFF) 2 rfl (by decide)
      (by decide) (by decide)
      (by simp [integral_type.in_range, uint32_t, integral_by_size.bits,
        integral_by_size.size])).1,
    by decide⟩

/-! ## Reversal in place on object representations -/

theorem to_bytes_of_bytes (o : order) (bs : List Nat) (h : ∀ x ∈ bs, x < 256) :
    to_bytes o bs.length (of_bytes o bs) = bs := by
  cases o
  · have h1 := bytes_little_of_bytes_little bs.reverse
      (fun x hx => h x (List.mem_reverse.mp hx))
    rw [List.length_reverse] at h1
    simp only [to_bytes, of_bytes, h1, List.reverse_reverse]
  · exact bytes_little_of_bytes_little bs h

theorem endian_reverse_inplace_bytes_eq_reverse (native : order) (no_intrinsics : Bool)
    (N : integral_by_size) (x : List Nat) (hlen : x.length = N.size)
    (hb : ∀ b ∈ x, b < 256) :
    endian_reverse_inplace_bytes native no_intrinsics N x = x.reverse := by
  have hu : of_bytes native x < 2 ^ N.bits := by
    have := of_bytes_lt native x hb
    rwa [hlen] at this
  simp only [endian_reverse_inplace_bytes, endian_reverse_impl_eq _ _ _ hu]
  rw [← hlen]
  cases native
  · have h1 := to_bytes_little_byte_swap x.length (of_bytes order.big x)
    have h2 := to_bytes_of_bytes order.big x hb
    have h3 : to_bytes order.big x.length (byte_swap x.length (of_bytes order.big x))
        = (to_bytes order.little x.length
          (byte_swap x.length (of_bytes order.big x))).reverse := rfl
    rw [h3, h1, h2]
  · rw [to_bytes_little_byte_swap]
    have h2 := to_bytes_of_bytes order.little x hb
    have h3 : to_bytes order.big x.length (of_bytes order.little x)
        = (to_bytes order.little x.length (of_bytes order.little x)).reverse := rfl
    rw [h3, h2]

theorem endian_reverse_inplace_bytes_twice (native : order) (no_intrinsics : Bool)
    (N : integral_by_size) (x : List Nat) (hlen : x.length = N.size)
    (hb : ∀ b ∈ x, b < 256) :
    endian_reverse_inplace_bytes native no_intrinsics N
      (endian_reverse_inplace_bytes native no_intrinsics N x) = x := by
  rw [endian_reverse_inplace_bytes_eq_reverse native no_intrinsics N x hlen hb,
    endian_reverse_inplace_bytes_eq_reverse native no_intrinsics N x.reverse
      (by rw [List.length_reverse]; exact hlen)
      (fun b hb1 => hb b (List.mem_reverse.mp hb1)),
    List.reverse_reverse]

theorem object_representation_endian_reverse_inplace (native : order) (no_intrinsics : Bool)
    (T : integral_type) (v : Int) :
    object_representation native T (endian_reverse_inplace native no_intrinsics T v)
      = endian_reverse_inplace_bytes native no_intrinsics T.uintN_t
        (object_representation native T v) := by
  have hu := static_cast_uintN_lt T.uintN_t v
  have hv : byte_swap T.uintN_t.size (static_cast_uintN T.uintN_t v) < 2 ^ T.uintN_t.bits :=
    byte_swap_lt _ _
  have e : 8 * T.uintN_t.size = T.uintN_t.bits := rfl
  rw [endian_reverse_inplace_eq, endian_reverse_eq_byte_swap]
  simp only [object_representation, endian_reverse_inplace_bytes, of_bytes_to_bytes, e]
  rw [static_cast_uintN_static_cast_T T _ hv, Nat.mod_eq_of_lt hu,
    endian_reverse_impl_eq _ _ _ hu]

/-- C32: in-place reversal is an involution on object representations. For every
scalar type `T` that is reversible in place (integral, enumeration, `float` or
`double`, the last two as their 32- and 64-bit patterns, whatever the pattern)
and every object representation `x` of `T`, `endian_reverse_inplace` leaves the
bytes of `x` in reverse order, and applied twice it restores the original bytes;
the same holds for every array of such scalars, element by element. On an
integer the function on the bytes is the function on the value. The bytes
`01 00 C0 7F` of a `float` NaN become `7F C0 00 01` and come back. -/
theorem endian_reverse_inplace_involution (native : order) (no_intrinsics : Bool)
    (T : cpp_type) (N : integral_by_size) (hT : is_endian_reversible_inplace T = true)
    (hN : integral_by_size_of T = some N) (x : List Nat) (hlen : x.length = N.size)
    (hb : ∀ b ∈ x, b < 256) :
    endian_reverse_inplace_scalar native no_intrinsics T x = some x.reverse ∧
      (endian_reverse_inplace_scalar native no_intrinsics T x).bind
        (endian_reverse_inplace_scalar native no_intrinsics T) = some x ∧
      (∀ (M : Nat) (a : List (List Nat)), a.length = M →
        (∀ e ∈ a, e.length = N.size ∧ ∀ b ∈ e, b < 256) →
        endian_reverse_inplace_array (endian_reverse_inplace_bytes native no_intrinsics N) M
          (endian_reverse_inplace_array (endian_reverse_inplace_bytes native no_intrinsics N) M a)
          = a) ∧
      (∀ S : cpp_type, is_endian_reversible_inplace S = true →
        (integral_by_size_of S).isSome = true) ∧
      (∀ (I : integral_type) (v : Int),
        object_representation native I (endian_reverse_inplace native no_intrinsics I v)
          = endian_reverse_inplace_bytes native no_intrinsics I.uintN_t
            (object_representation native I v)) ∧
      endian_reverse_inplace_scalar order.little true cpp_type.float [0x01, 0x00, 0xC0, 0x7F]
        = some [0x7F, 0xC0, 0x00, 0x01] ∧
      endian_reverse_inplace_scalar order.little true cpp_type.float [0x7F, 0xC0, 0x00, 0x01]
        = some [0x01, 0x00, 0xC0, 0x7F] := by
  have hs : ∀ y, endian_reverse_inplace_scalar native no_intrinsics T y
      = some (endian_reverse_inplace_bytes native no_intrinsics N y) := by
    intro y
    simp only [endian_reverse_inplace_scalar, endian_reverse_inplace_static_assert, hT, hN,
      if_true, Option.map_some']
  have h1 := endian_reverse_inplace_bytes_eq_reverse native no_intrinsics N x hlen hb
  refine ⟨by rw [hs, h1], ?_, ?_, ?_, ?_, by decide, by decide⟩
  · rw [hs, Option.some_bind, hs,
      endian_reverse_inplace_bytes_twice native no_intrinsics N x hlen hb]
  · intro M a ha hel
    rw [endian_reverse_inplace_array_eq_map _ M a ha,
      endian_reverse_inplace_array_eq_map _ M _ (by rw [List.length_map]; exact ha),
      List.map_map]
    calc a.map (endian_reverse_inplace_bytes native no_intrinsics N ∘
          endian_reverse_inplace_bytes native no_intrinsics N)
        = a.map id := List.map_congr_left fun e he =>
          endian_reverse_inplace_bytes_twice native no_intrinsics N e (hel e he).1 (hel e he).2
      _ = a := List.map_id a
  · intro S hS
    cases S <;> simp [integral_by_size_of, is_endian_reversible_inplace, is_integral, is_enum,
      is_same_float, is_same_double] at hS ⊢
  · exact fun I v => object_representation_endian_reverse_inplace native no_intrinsics I v

/-- Witness of C32: the bytes `12 34 56 78` of an `int32_t` on a big-endian
host. -/
theorem endian_reverse_inplace_involution_witness :
    is_endian_reversible_inplace (cpp_type.integral int32_t) = true ∧
      integral_by_size_of (cpp_type.integral int32_t) = some integral_by_size.uint32_t ∧
      [0x12, 0x34, 0x56, 0x78].length = integral_by_size.uint32_t.size ∧
      (∀ b ∈ [0x12, 0x34, 0x56, 0x78], b < 256) ∧
      (endian_reverse_inplace_scalar order.big true (cpp_type.integral int32_t)
          [0x12, 0x34, 0x56, 0x78]).bind
        (endian_reverse_inplace_scalar order.big true (cpp_type.integral int32_t))
        = some [0x12, 0x34, 0x56, 0x78] ∧
      endian_reverse_inplace_scalar order.big true (cpp_type.integral int32_t)
        [0x12, 0x34, 0x56, 0x78] = some [0x78, 0x56, 0x34, 0x12] :=
  ⟨by decide, by decide, by decide, by decide,
    (endian_reverse_inplace_involution order.big true (cpp_type.integral int32_t)
      integral_by_size.uint32_t (by decide) (by decide) [0x12, 0x34, 0x56, 0x78] (by decide)
      (by decide)).2.1,
    by decide⟩

end Endian
